import Mathlib

/-!
Verification of the pqc-rs ML-KEM core against its specification.

The Rust sources are shallowly embedded in Lean: i64 arithmetic becomes
arithmetic on the unbounded integers (all values handled by the code are far
below the i64 range, so no wrap-around is modelled); the method rem_euclid
becomes the Euclidean remainder operation on the integers (written with the
percent operator, which in Lean is the Euclidean remainder for integers);
the truncating division of Rust and the arithmetic right shift coincide with
the Lean integer division on the non-negative operands that occur in the
code, and the embeddings are stated and used on those domains.
Byte strings (Vec of u8 or u8 slices) become lists of natural numbers, and a
fixed-length coefficient vector (Vec of i64 of length N = 256) becomes its
indexing function from the naturals to the integers: element assignment is
Function.update and element access is application.

The trait PolyParams (file constants.rs, which only has callers in the
sources at hand) supplies N = 256, Q = 3329, ZETA = 17, N_INV = 3303 and the
zeta table; those constants are modelled from the spec where so marked.
-/

set_option maxRecDepth 10000
set_option maxHeartbeats 1000000

namespace MLKem

/-- The modulus q = 3329 of the coefficient ring, from the spec constant
P::Q used by every source file. -/
abbrev Q : ℤ := 3329

/-- The seven-bit bit reversal br7, with bit j of the input becoming
bit 6 - j of the output. -/
def br7 (i : ℕ) : ℕ := (List.range 7).foldl (fun acc j => 2 * acc + i / 2 ^ j % 2) 0

/-- Modelled from the spec: the zeta table returned by P::zetas() (the
PolyParams implementation in constants.rs is not under the sources at hand);
entry i is zeta^(br7 i) mod q with zeta = 17, matching FIPS 203 Appendix A;
entry 0 is never read by the loops below. -/
def zetas (i : ℕ) : ℤ := (17 ^ br7 i : ℤ) % Q

/-- Embedding of compress from conversion.rs: the operands are non-negative
for every x in [0, q), so the truncating division and remainder of Rust
agree with the Lean integer division and remainder used here. -/
def compress (x : ℤ) (d : ℕ) (q : ℤ) : ℤ := (x * 2 ^ d + q / 2) / q % 2 ^ d

/-- Embedding of decompress from conversion.rs: the right shift by d of the
non-negative numerator is its division by 2 ^ d. -/
def decompress (x : ℤ) (d : ℕ) (q : ℤ) : ℤ := (x * q + 2 ^ (d - 1)) / 2 ^ d

/-- A balanced-recursion bounded checker: ballCheck f fuel lo size decides
f on every point of [lo, lo + size) without deep recursion. -/
def ballCheck (f : ℕ → Bool) : ℕ → ℕ → ℕ → Bool
  | 0, lo, size => (List.range size).all (fun i => f (lo + i))
  | fuel+1, lo, size =>
      ballCheck f fuel lo (size / 2) && ballCheck f fuel (lo + size / 2) (size - size / 2)

theorem ballCheck_sound (f : ℕ → Bool) :
    ∀ fuel lo size, ballCheck f fuel lo size = true → ∀ i, i < size → f (lo + i) = true := by
  intro fuel
  induction fuel with
  | zero =>
    intro lo size h i hi
    simp only [ballCheck, List.all_eq_true] at h
    exact h i (List.mem_range.mpr hi)
  | succ n ih =>
    intro lo size h i hi
    simp only [ballCheck, Bool.and_eq_true] at h
    by_cases hc : i < size / 2
    · exact ih lo (size / 2) h.1 i hc
    · have h2 := ih (lo + size / 2) (size - size / 2) h.2 (i - size / 2) (by omega)
      have h3 : lo + size / 2 + (i - size / 2) = lo + i := by omega
      rwa [h3] at h2

/-- The error bound ceil(q / 2^(d+1)) of the spec, as an integer. -/
def compressBound (d : ℕ) : ℤ := ((3329 + 2 ^ (d + 1) - 1) / 2 ^ (d + 1) : ℕ)

/-- Natural-number mirror of one compress-then-decompress error check, used
only to make the exhaustive kernel evaluation fast. -/
def compressCheckN (x d : ℕ) : Bool :=
  let c := (x * 2 ^ d + 1664) / 3329 % 2 ^ d
  let y := (c * 3329 + 2 ^ (d - 1)) / 2 ^ d
  let e := (3329 + y - x) % 3329
  let b := (3329 + 2 ^ (d + 1) - 1) / 2 ^ (d + 1)
  decide (e ≤ b) || decide (3329 - b ≤ e)

def compressCheckAll (x : ℕ) : Bool := (List.range 12).all (fun dm1 => compressCheckN x (dm1 + 1))

theorem compressCheck_holds : ballCheck compressCheckAll 10 0 3329 = true := by decide

theorem compress_natCast (x d : ℕ) :
    compress (x : ℤ) d 3329 = ((x * 2 ^ d + 1664) / 3329 % 2 ^ d : ℕ) := by
  unfold compress
  push_cast
  norm_num

theorem decompress_natCast (c d : ℕ) :
    decompress (c : ℤ) d 3329 = ((c * 3329 + 2 ^ (d - 1)) / 2 ^ d : ℕ) := by
  unfold decompress
  push_cast
  ring_nf

/-- C7: for every integer x in [0, q) and every width d in 1..12, the value
decompress(compress(x, d, q), d, q) differs from x by at most
ceil(q / 2^(d+1)) modulo q, in the sense of the spec congruence
x plus or minus the bound: the Euclidean residue of the difference is either
at most the bound or at least q minus the bound. -/
theorem compress_decompress_error (x : ℤ) (hx0 : 0 ≤ x) (hx : x < 3329)
    (d : ℕ) (hd1 : 1 ≤ d) (hd2 : d ≤ 12) :
    (decompress (compress x d 3329) d 3329 - x) % 3329 ≤ compressBound d ∨
      3329 - compressBound d ≤ (decompress (compress x d 3329) d 3329 - x) % 3329 := by
  obtain ⟨n, rfl⟩ : ∃ n : ℕ, x = (n : ℤ) := ⟨x.toNat, (Int.toNat_of_nonneg hx0).symm⟩
  have hn : n < 3329 := by exact_mod_cast hx
  have hc := ballCheck_sound compressCheckAll 10 0 3329 compressCheck_holds n hn
  simp only [Nat.zero_add, compressCheckAll, List.all_eq_true] at hc
  have hmem : d - 1 ∈ List.range 12 := List.mem_range.mpr (by omega)
  have hd : d - 1 + 1 = d := by omega
  have hcd := hc (d - 1) hmem
  rw [hd] at hcd
  rw [compressCheckN] at hcd
  simp only [Bool.or_eq_true, decide_eq_true_eq] at hcd
  rw [compress_natCast, decompress_natCast, compressBound]
  have key : ∀ yN bN : ℕ, ((3329 + yN - n) % 3329 ≤ bN ∨ 3329 - bN ≤ (3329 + yN - n) % 3329) →
      (((yN : ℤ) - (n : ℤ)) % 3329 ≤ (bN : ℤ) ∨
        3329 - (bN : ℤ) ≤ ((yN : ℤ) - (n : ℤ)) % 3329) := by
    intro yN bN h
    omega
  exact key _ _ hcd

/-- Witness for C7 at the concrete spec vector x = 1933, d = 11. -/
theorem compress_decompress_error_witness :
    ((0 : ℤ) ≤ 1933 ∧ (1933 : ℤ) < 3329 ∧ 1 ≤ 11 ∧ 11 ≤ 12) ∧
      ((decompress (compress 1933 11 3329) 11 3329 - 1933) % 3329 ≤ compressBound 11 ∨
        3329 - compressBound 11 ≤ (decompress (compress 1933 11 3329) 11 3329 - 1933) % 3329) :=
  ⟨by norm_num, compress_decompress_error 1933 (by norm_num) (by norm_num) 11 (by norm_num) (by norm_num)⟩

/-- Bit j of an i64 value: arithmetic shift right then mask with one; on the
non-negative coefficients handled by the code this is the j-th binary digit. -/
def bitOf (c : ℤ) (j : ℕ) : Bool := decide (c / 2 ^ j % 2 = 1)

/-- Embedding of bytes_to_bits (Algorithm 4) from conversion.rs: the Lsb0
bit stream of a byte string, bit idx being bit idx mod 8 of byte idx div 8. -/
def bytes_to_bits (bytes : List ℕ) : List Bool :=
  (List.range (8 * bytes.length)).map (fun idx => (bytes.getD (idx / 8) 0).testBit (idx % 8))

/-- Embedding of bits_to_bytes (Algorithm 3) from conversion.rs: packs the
Lsb0 bit stream back into bytes; every caller passes a byte-aligned stream. -/
def bits_to_bytes (bits : List Bool) : List ℕ :=
  (List.range (bits.length / 8)).map (fun i =>
    (List.range 8).foldl (fun acc j => acc + (bits.getD (8 * i + j) false).toNat * 2 ^ j) 0)

/-- Embedding of ByteEncode (Algorithm 5) from conversion.rs: a bit vector
of length len(f) * d is zero-initialised and bit i*d+j is set to bit j of
coefficient i, so the bit at index idx is bit idx mod d of coefficient
idx div d; the bits are then packed into bytes. -/
def byte_encode (f : List ℤ) (d : ℕ) : List ℕ :=
  bits_to_bytes ((List.range (f.length * d)).map (fun idx => bitOf (f.getD (idx / d) 0) (idx % d)))

/-- Embedding of ByteDecode (Algorithm 6) from conversion.rs: coefficient i
accumulates its d bits, reducing by the modulus m after every bit. -/
def byte_decode (bytes : List ℕ) (d : ℕ) (q : ℤ) : List ℤ :=
  let m : ℤ := if d = 12 then q else 2 ^ d
  let bits := bytes_to_bits bytes
  (List.range (bits.length / d)).map (fun i =>
    (List.range d).foldl (fun acc j => (acc + ((bits.getD (i * d + j) false).toNat : ℤ) * 2 ^ j) % m) 0)

theorem length_bits_to_bytes (bits : List Bool) : (bits_to_bytes bits).length = bits.length / 8 := by
  simp [bits_to_bytes]

theorem length_bytes_to_bits (bytes : List ℕ) : (bytes_to_bits bytes).length = 8 * bytes.length := by
  simp [bytes_to_bits]

theorem length_byte_encode (f : List ℤ) (d : ℕ) :
    (byte_encode f d).length = f.length * d / 8 := by
  simp [byte_encode, length_bits_to_bytes]

/-- The incremental-reduction fold of ByteDecode equals the plain bit sum
reduced once at the end. -/
theorem decode_foldl_eq (g : ℕ → ℤ) (m : ℤ) :
    ∀ d : ℕ, (List.range d).foldl (fun acc j => (acc + g j * 2 ^ j) % m) 0 =
      (∑ j ∈ Finset.range d, g j * 2 ^ j) % m := by
  intro d
  induction d with
  | zero => simp
  | succ n ih =>
    rw [List.range_succ, List.foldl_append, List.foldl_cons, List.foldl_nil, ih,
      Finset.sum_range_succ, Int.emod_add_emod]

/-- Bridge from a parity equation to the Bool decide form of testBit. -/
theorem decide_bit_helper (n : ℕ) (b : Bool) (h : n % 2 = b.toNat) : decide (n % 2 = 1) = b := by
  rcases b with _ | _ <;> simp at h ⊢ <;> omega

/-- The byte value assembled by bits_to_bytes from eight bits has exactly
those bits. -/
theorem byteVal_testBit (g : ℕ → Bool) (j : ℕ) (hj : j < 8) :
    ((List.range 8).foldl (fun acc j => acc + (g j).toNat * 2 ^ j) 0).testBit j = g j := by
  have h8 : List.range 8 = [0, 1, 2, 3, 4, 5, 6, 7] := rfl
  rw [h8]
  simp only [List.foldl_cons, List.foldl_nil, Nat.testBit_to_div_mod]
  have h0 := Bool.toNat_le (g 0)
  have h1 := Bool.toNat_le (g 1)
  have h2 := Bool.toNat_le (g 2)
  have h3 := Bool.toNat_le (g 3)
  have h4 := Bool.toNat_le (g 4)
  have h5 := Bool.toNat_le (g 5)
  have h6 := Bool.toNat_le (g 6)
  have h7 := Bool.toNat_le (g 7)
  interval_cases j <;> (apply decide_bit_helper ; norm_num ; omega)

/-- The byte values assembled by bits_to_bytes are below 256. -/
theorem byteVal_lt (g : ℕ → Bool) :
    ((List.range 8).foldl (fun acc j => acc + (g j).toNat * 2 ^ j) 0) < 256 := by
  have h8 : List.range 8 = [0, 1, 2, 3, 4, 5, 6, 7] := rfl
  rw [h8]
  simp only [List.foldl_cons, List.foldl_nil]
  have h0 := Bool.toNat_le (g 0)
  have h1 := Bool.toNat_le (g 1)
  have h2 := Bool.toNat_le (g 2)
  have h3 := Bool.toNat_le (g 3)
  have h4 := Bool.toNat_le (g 4)
  have h5 := Bool.toNat_le (g 5)
  have h6 := Bool.toNat_le (g 6)
  have h7 := Bool.toNat_le (g 7)
  omega

theorem getD_range_map {α : Type} (f : ℕ → α) (n i : ℕ) (dflt : α) (h : i < n) :
    ((List.range n).map f).getD i dflt = f i := by
  rw [List.getD_eq_getElem?_getD]
  simp [List.getElem?_map, List.getElem?_range h]

/-- Unpacking the packed bytes returns the original bit stream when it is
byte-aligned. -/
theorem bytes_to_bits_bits_to_bytes (bits : List Bool) (h : 8 ∣ bits.length) :
    bytes_to_bits (bits_to_bytes bits) = bits := by
  have hlen : (bits_to_bytes bits).length = bits.length / 8 := length_bits_to_bytes bits
  apply List.ext_getElem
  · rw [length_bytes_to_bits, hlen]
    omega
  · intro idx h1 h2
    have hidx : idx < bits.length := h2
    have h1' : idx < 8 * (bits.length / 8) := by omega
    simp only [bytes_to_bits, List.getElem_map, List.getElem_range]
    rw [show (bits_to_bytes bits).getD (idx / 8) 0 =
      (List.range 8).foldl
        (fun acc j => acc + (bits.getD (8 * (idx / 8) + j) false).toNat * 2 ^ j) 0 from by
        rw [bits_to_bytes]
        exact getD_range_map _ _ _ _ (by omega)]
    rw [byteVal_testBit _ _ (Nat.mod_lt _ (by norm_num))]
    rw [show 8 * (idx / 8) + idx % 8 = idx from by omega]
    rw [List.getD_eq_getElem?_getD, List.getElem?_eq_getElem hidx]
    rfl

/-- The coefficient modulus of ByteDecode: 2^d below width 12 and q at
width 12. -/
def mval (d : ℕ) : ℤ := if d = 12 then 3329 else 2 ^ d

theorem mval_pos (d : ℕ) : 0 < mval d := by
  rw [mval]
  split <;> positivity

theorem sum_testBit_toNat (c : ℕ) :
    ∀ d, (∑ j ∈ Finset.range d, (c.testBit j).toNat * 2 ^ j) = c % 2 ^ d := by
  intro d
  induction d with
  | zero => simp [Nat.mod_one]
  | succ n ih =>
    rw [Finset.sum_range_succ, ih, Nat.mod_pow_succ]
    rcases Nat.mod_two_eq_zero_or_one (c / 2 ^ n) with h | h <;>
      simp [Nat.testBit_to_div_mod, h, Nat.mul_comm]

theorem bitOf_natCast (c j : ℕ) : bitOf (c : ℤ) j = c.testBit j := by
  rw [bitOf, Nat.testBit_to_div_mod]
  refine decide_eq_decide.mpr ?_
  constructor <;> intro h <;> exact_mod_cast h

/-- ByteDecode inverts ByteEncode on 256 coefficients in the valid range. -/
theorem byte_decode_byte_encode (d : ℕ) (hd1 : 1 ≤ d) (hd2 : d ≤ 12) (F : List ℤ)
    (hF : F.length = 256) (hr : ∀ c ∈ F, 0 ≤ c ∧ c < mval d) :
    byte_decode (byte_encode F d) d 3329 = F := by
  have hebl : ((List.range (F.length * d)).map
      fun idx => bitOf (F.getD (idx / d) 0) (idx % d)).length = 256 * d := by
    simp [hF]
  have hdvd : 8 ∣ ((List.range (F.length * d)).map
      fun idx => bitOf (F.getD (idx / d) 0) (idx % d)).length := by
    rw [hebl]
    exact ⟨32 * d, by ring⟩
  simp only [byte_decode, byte_encode]
  rw [bytes_to_bits_bits_to_bytes _ hdvd]
  rw [hebl, Nat.mul_div_cancel 256 (by omega)]
  apply List.ext_getElem
  · simp [hF]
  · intro i h1 h2
    have hi : i < 256 := by simpa using h1
    simp only [List.getElem_map, List.getElem_range]
    rw [decode_foldl_eq]
    have hmem : F[i] ∈ F := List.getElem_mem h2
    obtain ⟨hc0, hclt⟩ := hr _ hmem
    obtain ⟨cN, hcN⟩ : ∃ cN : ℕ, F[i] = (cN : ℤ) := ⟨(F[i]).toNat, (Int.toNat_of_nonneg hc0).symm⟩
    have hsum : (∑ j ∈ Finset.range d,
        ((((List.range (F.length * d)).map
          fun idx => bitOf (F.getD (idx / d) 0) (idx % d)).getD (i * d + j) false).toNat : ℤ)
          * 2 ^ j)
        = ((cN % 2 ^ d : ℕ) : ℤ) := by
      push_cast [← sum_testBit_toNat cN d]
      apply Finset.sum_congr rfl
      intro j hj
      have hjd : j < d := Finset.mem_range.mp hj
      have hlt : i * d + j < F.length * d := by
        rw [hF]
        have ha : i * d + j < (i + 1) * d := by
          rw [Nat.succ_mul]
          omega
        have hb : (i + 1) * d ≤ 256 * d := Nat.mul_le_mul_right d (by omega)
        omega
      rw [getD_range_map _ _ _ _ hlt]
      rw [show (i * d + j) / d = i from by
        rw [show i * d + j = d * i + j from by ring, Nat.mul_add_div (by omega),
          Nat.div_eq_of_lt hjd]
        omega]
      rw [show (i * d + j) % d = j from by
        rw [show i * d + j = j + i * d from by ring, Nat.add_mul_mod_self_right]
        exact Nat.mod_eq_of_lt hjd]
      rw [show F.getD i 0 = F[i] from by
        rw [List.getD_eq_getElem?_getD, List.getElem?_eq_getElem h2]
        rfl]
      rw [hcN, bitOf_natCast]
    rw [hsum]
    have hcd : cN < 2 ^ d := by
      by_cases h12 : d = 12
      · subst h12
        rw [mval, if_pos rfl] at hclt
        have : cN < 3329 := by exact_mod_cast hcN ▸ hclt
        omega
      · rw [mval, if_neg h12] at hclt
        exact_mod_cast hcN ▸ hclt
    rw [Nat.mod_eq_of_lt hcd, hcN]
    by_cases h12 : d = 12
    · subst h12
      rw [if_pos rfl]
      apply Int.emod_eq_of_lt (by positivity)
      have : cN < 3329 := by
        rw [mval, if_pos rfl] at hclt
        exact_mod_cast hcN ▸ hclt
      exact_mod_cast this
    · rw [if_neg h12]
      apply Int.emod_eq_of_lt (by positivity)
      rw [mval, if_neg h12] at hclt
      exact hcN ▸ hclt

/-- Every value produced by ByteDecode lies in the interval from 0 to the
modulus m. -/
theorem byte_decode_range (bytes : List ℕ) (d : ℕ) :
    ∀ x ∈ byte_decode bytes d 3329, 0 ≤ x ∧ x < mval d := by
  intro x hx
  simp only [byte_decode, List.mem_map] at hx
  obtain ⟨i, hi, rfl⟩ := hx
  rw [decode_foldl_eq]
  have hm : 0 < mval d := mval_pos d
  rw [mval] at hm
  constructor
  · exact Int.emod_nonneg _ (by omega)
  · rw [mval]
    exact Int.emod_lt_of_pos _ hm

/-- C8: the bit-packing round trip: for every d in 1..12 and every list F of
256 coefficients with entries in the interval from 0 to m (m = 2^d for
d below 12 and m = q for d = 12), decoding the encoding returns F; and every
integer produced by ByteDecode lies in that interval, the 12-bit case being
reduced modulo q. -/
theorem byte_encode_decode_roundtrip :
    (∀ d : ℕ, 1 ≤ d → d ≤ 12 → ∀ F : List ℤ, F.length = 256 →
      (∀ c ∈ F, 0 ≤ c ∧ c < mval d) → byte_decode (byte_encode F d) d 3329 = F) ∧
    (∀ bytes : List ℕ, ∀ d : ℕ, ∀ x ∈ byte_decode bytes d 3329, 0 ≤ x ∧ x < mval d) :=
  ⟨byte_decode_byte_encode, byte_decode_range⟩

/-- Witness for C8 at d = 1 and the all-zero coefficient list. -/
theorem byte_encode_decode_roundtrip_witness :
    ((1 : ℕ) ≤ 1 ∧ (1 : ℕ) ≤ 12 ∧ (List.replicate 256 (0 : ℤ)).length = 256 ∧
      (∀ c ∈ List.replicate 256 (0 : ℤ), 0 ≤ c ∧ c < mval 1)) ∧
      byte_decode (byte_encode (List.replicate 256 (0 : ℤ)) 1) 1 3329 =
        List.replicate 256 (0 : ℤ) := by
  refine ⟨⟨le_refl 1, by norm_num, by simp, ?_⟩, ?_⟩
  · intro c hc
    rw [List.eq_of_mem_replicate hc, mval]
    norm_num
  · exact byte_encode_decode_roundtrip.1 1 (le_refl 1) (by norm_num) _ (by simp)
      (fun c hc => by
        rw [List.eq_of_mem_replicate hc, mval]
        norm_num)

/-- C9 counterexample: ByteEncode does not fail on a coefficient that
exceeds d bits: encoding 4 at width d = 2 silently produces the same 64-byte
string as encoding the all-zero coefficient list. -/
theorem byte_encode_oversized_counterexample :
    byte_encode [(4 : ℤ), 0, 0, 0] 2 = byte_encode [(0 : ℤ), 0, 0, 0] 2 ∧
      byte_encode [(4 : ℤ), 0, 0, 0] 2 = [0] := by
  constructor
  · decide
  · decide

theorem getD_map_int (f : ℤ → ℤ) (l : List ℤ) (i : ℕ) (h : i < l.length) :
    (l.map f).getD i 0 = f l[i] := by
  rw [List.getD_eq_getElem?_getD, List.getElem?_map, List.getElem?_eq_getElem h]
  rfl

/-- C9 amended: ByteEncode is total and silently truncates: on non-negative
coefficients the encoding only depends on the low d bits of each
coefficient. -/
theorem byte_encode_truncates (F : List ℤ) (d : ℕ) (h : ∀ c ∈ F, 0 ≤ c) :
    byte_encode F d = byte_encode (F.map (fun c => c % 2 ^ d)) d := by
  rw [byte_encode, byte_encode]
  congr 1
  rw [List.length_map]
  apply List.ext_getElem
  · simp
  · intro idx h1 h2
    simp only [List.getElem_map, List.getElem_range]
    have hidx : idx < F.length * d := by simpa using h1
    have hd : 0 < d := by
      rcases Nat.eq_zero_or_pos d with h0 | h0
      · subst h0
        omega
      · exact h0
    have hq : idx / d < F.length := Nat.div_lt_of_lt_mul (by
      rw [Nat.mul_comm F.length d] at hidx
      exact hidx)
    rw [getD_map_int _ _ _ hq]
    rw [show F.getD (idx / d) 0 = F[idx / d] from by
      rw [List.getD_eq_getElem?_getD, List.getElem?_eq_getElem hq]
      rfl]
    have hc0 : 0 ≤ F[idx / d] := h _ (List.getElem_mem hq)
    obtain ⟨cN, hcN⟩ : ∃ cN : ℕ, F[idx / d] = (cN : ℤ) :=
      ⟨(F[idx / d]).toNat, (Int.toNat_of_nonneg hc0).symm⟩
    rw [hcN]
    rw [show ((cN : ℤ) % 2 ^ d) = ((cN % 2 ^ d : ℕ) : ℤ) from by push_cast ; rfl]
    rw [bitOf_natCast, bitOf_natCast, Nat.testBit_mod_two_pow]
    have hmod : idx % d < d := Nat.mod_lt _ hd
    simp [hmod]

/-- Witness for the amended C9 at F = [5], d = 3. -/
theorem byte_encode_truncates_witness :
    (∀ c ∈ [(5 : ℤ)], 0 ≤ c) ∧
      byte_encode [(5 : ℤ)] 3 = byte_encode ([(5 : ℤ)].map (fun c => c % 2 ^ 3)) 3 :=
  ⟨by decide, byte_encode_truncates [(5 : ℤ)] 3 (by decide)⟩

/-- Coefficient arrays: a Vec of i64 of length N = 256 is embedded as its
indexing function. -/
abbrev Poly := ℕ → ℤ

def zeroPoly : Poly := fun _ => 0

/-- Embedding of the Add instances of polynomial.rs (Polynomial and
PolynomialNTT alike): coefficient-wise addition reduced into [0, q). -/
def addPoly (a b : Poly) : Poly := fun n => (a n + b n) % Q

/-- Embedding of the Sub instance of polynomial.rs. -/
def subPoly (a b : Poly) : Poly := fun n => (a n - b n) % Q

/-- The Cooley-Tukey butterfly from the inner loop of to_ntt: the slot j+len
is written first from the old slot j, then slot j is written, both reads
being of the original values. -/
def ctButterfly (z : ℤ) (len j : ℕ) (c : Poly) : Poly :=
  let t := (z * c (j + len)) % Q
  Function.update (Function.update c (j + len) ((c j - t) % Q)) j ((c j + t) % Q)

/-- One pass of the while loop of to_ntt (Algorithm 9) for a given len; the
state carries the coefficients and the running zeta index i, which the
source increments once per start block. -/
def ctLayer (len : ℕ) (st : Poly × ℕ) : Poly × ℕ :=
  (List.range (256 / (2 * len))).foldl (fun st b =>
    ((List.range len).foldl (fun c jo => ctButterfly (zetas st.2) len (2 * len * b + jo) c) st.1,
      st.2 + 1)) st

/-- Embedding of to_ntt (Algorithm 9) from polynomial.rs: len runs over
128, 64, ..., 2 and the zeta index starts at 1. -/
def to_ntt (a : Poly) : Poly :=
  ([128, 64, 32, 16, 8, 4, 2].foldl (fun st len => ctLayer len st) (a, 1)).1

/-- The Gentleman-Sande butterfly from the inner loop of from_ntt: slot j is
written first, then slot j+len, using the saved old value t of slot j. -/
def gsButterfly (z : ℤ) (len j : ℕ) (c : Poly) : Poly :=
  let t := c j
  Function.update (Function.update c j ((t + c (j + len)) % Q)) (j + len)
    ((z * (c (j + len) - t)) % Q)

/-- One pass of the while loop of from_ntt (Algorithm 10) for a given len;
the zeta index decrements once per start block. -/
def gsLayer (len : ℕ) (st : Poly × ℕ) : Poly × ℕ :=
  (List.range (256 / (2 * len))).foldl (fun st b =>
    ((List.range len).foldl (fun c jo => gsButterfly (zetas st.2) len (2 * len * b + jo) c) st.1,
      st.2 - 1)) st

/-- Embedding of from_ntt (Algorithm 10) from polynomial.rs: len runs over
2, 4, ..., 128, the zeta index starts at 127, and at the end every
coefficient is scaled by N_INV = 3303 and reduced. -/
def from_ntt (f : Poly) : Poly :=
  let c := ([2, 4, 8, 16, 32, 64, 128].foldl (fun st len => gsLayer len st) (f, 127)).1
  fun n => c n * 3303 % Q

theorem ctButterfly_apply (z : ℤ) (len j : ℕ) (c : Poly) (n : ℕ) :
    ctButterfly z len j c n =
      if n = j then (c j + (z * c (j + len)) % Q) % Q
      else if n = j + len then (c j - (z * c (j + len)) % Q) % Q
      else c n := by
  rw [ctButterfly]
  simp only [Function.update_apply]

theorem gsButterfly_apply (z : ℤ) (len j : ℕ) (hlen : 0 < len) (c : Poly) (n : ℕ) :
    gsButterfly z len j c n =
      if n = j then (c j + c (j + len)) % Q
      else if n = j + len then (z * (c (j + len) - c j)) % Q
      else c n := by
  rw [gsButterfly]
  simp only [Function.update_apply]
  split_ifs <;> first | rfl | omega

end MLKem

namespace MLKem

/-- Effect of the inner j-loop of a to_ntt block: the first m butterflies of
the block starting at start rewrite the two half-ranges and leave the rest
unchanged. -/
theorem ctBlock_eq (z : ℤ) (len start : ℕ) (hlen : 0 < len) (c : Poly) :
    ∀ m, m ≤ len → ∀ n,
      ((List.range m).foldl (fun c jo => ctButterfly z len (start + jo) c) c) n =
        if start ≤ n ∧ n < start + m then (c n + (z * c (n + len)) % Q) % Q
        else if start + len ≤ n ∧ n < start + len + m then (c (n - len) - (z * c n) % Q) % Q
        else c n := by
  intro m
  induction m with
  | zero =>
    intro hm n
    rw [List.range_zero, List.foldl_nil, if_neg (by omega), if_neg (by omega)]
  | succ k ih =>
    intro hm n
    have hk : k ≤ len := by omega
    have prevDef := ih hk
    have e1 : (List.range k).foldl (fun c jo => ctButterfly z len (start + jo) c) c (start + k)
        = c (start + k) := by
      rw [prevDef (start + k), if_neg (by omega), if_neg (by omega)]
    have e2 : (List.range k).foldl (fun c jo => ctButterfly z len (start + jo) c) c
        (start + k + len) = c (start + k + len) := by
      rw [prevDef (start + k + len), if_neg (by omega), if_neg (by omega)]
    rw [List.range_succ, List.foldl_append, List.foldl_cons, List.foldl_nil]
    rw [ctButterfly_apply, e1, e2, prevDef n]
    by_cases h1 : n = start + k
    · subst h1
      rw [if_pos rfl, if_pos (by omega)]
    · rw [if_neg h1]
      by_cases h2 : n = start + k + len
      · subst h2
        rw [if_pos rfl, if_neg (by omega), if_pos (by omega),
          show start + k + len - len = start + k from by omega]
      · rw [if_neg h2]
        split_ifs <;> first | rfl | (exfalso ; omega)

end MLKem

namespace MLKem

/-- Effect of the inner j-loop of a from_ntt block. -/
theorem gsBlock_eq (z : ℤ) (len start : ℕ) (hlen : 0 < len) (c : Poly) :
    ∀ m, m ≤ len → ∀ n,
      ((List.range m).foldl (fun c jo => gsButterfly z len (start + jo) c) c) n =
        if start ≤ n ∧ n < start + m then (c n + c (n + len)) % Q
        else if start + len ≤ n ∧ n < start + len + m then (z * (c n - c (n - len))) % Q
        else c n := by
  intro m
  induction m with
  | zero =>
    intro hm n
    rw [List.range_zero, List.foldl_nil, if_neg (by omega), if_neg (by omega)]
  | succ k ih =>
    intro hm n
    have hk : k ≤ len := by omega
    have prevDef := ih hk
    have e1 : (List.range k).foldl (fun c jo => gsButterfly z len (start + jo) c) c (start + k)
        = c (start + k) := by
      rw [prevDef (start + k), if_neg (by omega), if_neg (by omega)]
    have e2 : (List.range k).foldl (fun c jo => gsButterfly z len (start + jo) c) c
        (start + k + len) = c (start + k + len) := by
      rw [prevDef (start + k + len), if_neg (by omega), if_neg (by omega)]
    rw [List.range_succ, List.foldl_append, List.foldl_cons, List.foldl_nil]
    rw [gsButterfly_apply _ _ _ hlen, e1, e2, prevDef n]
    by_cases h1 : n = start + k
    · subst h1
      rw [if_pos rfl, if_pos (by omega)]
    · rw [if_neg h1]
      by_cases h2 : n = start + k + len
      · subst h2
        rw [if_pos rfl, if_neg (by omega), if_pos (by omega),
          show start + k + len - len = start + k from by omega]
      · rw [if_neg h2]
        split_ifs <;> first | rfl | (exfalso ; omega)

end MLKem

namespace MLKem

/-- Effect of the start-loop of one to_ntt layer: after nb blocks the zeta
counter has advanced by nb and the first nb blocks of size 2*len hold the
butterfly results, with the zeta of block b taken at index i0 + b. -/
theorem ctLayerAux (len : ℕ) (hlen : 0 < len) (i0 : ℕ) (c : Poly) :
    ∀ nb,
      ((List.range nb).foldl (fun st b =>
        ((List.range len).foldl (fun c jo => ctButterfly (zetas st.2) len (2 * len * b + jo) c)
          st.1, st.2 + 1)) (c, i0)).2 = i0 + nb ∧
      ∀ n, ((List.range nb).foldl (fun st b =>
        ((List.range len).foldl (fun c jo => ctButterfly (zetas st.2) len (2 * len * b + jo) c)
          st.1, st.2 + 1)) (c, i0)).1 n =
        if n < 2 * len * nb then
          if n % (2 * len) < len then (c n + (zetas (i0 + n / (2 * len)) * c (n + len)) % Q) % Q
          else (c (n - len) - (zetas (i0 + n / (2 * len)) * c n) % Q) % Q
        else c n := by
  intro nb
  induction nb with
  | zero =>
    constructor
    · rfl
    · intro n
      rw [List.range_zero, List.foldl_nil, if_neg (by omega)]
  | succ nb ih =>
    obtain ⟨ihc, ihv⟩ := ih
    rw [List.range_succ, List.foldl_append, List.foldl_cons, List.foldl_nil]
    have hp3 : 2 * len * (nb + 1) = 2 * len * nb + 2 * len := by ring
    constructor
    · simp only []
      rw [ihc]
      omega
    · intro n
      simp only []
      rw [ihc]
      rw [ctBlock_eq (zetas (i0 + nb)) len (2 * len * nb) hlen _ len le_rfl n]
      by_cases hA : n < 2 * len * nb
      · rw [if_neg (by omega), if_neg (by omega), ihv n, if_pos hA]
        exact (if_pos (by omega)).symm
      · by_cases hB : n < 2 * len * nb + len
        · have hdiv : n / (2 * len) = nb := by
            apply Nat.div_eq_of_lt_le
            · rw [Nat.mul_comm]
              omega
            · rw [show (nb + 1) * (2 * len) = 2 * len * nb + 2 * len from by ring]
              omega
          have hmod : n % (2 * len) = n - 2 * len * nb := by
            have hdm := Nat.div_add_mod n (2 * len)
            rw [hdiv] at hdm
            omega
          rw [if_pos (by omega), ihv n, if_neg (by omega), ihv (n + len),
            if_neg (by omega), hmod, hdiv, if_pos (by omega), if_pos (by omega)]
        · by_cases hC : n < 2 * len * nb + 2 * len
          · have hdiv : n / (2 * len) = nb := by
              apply Nat.div_eq_of_lt_le
              · rw [Nat.mul_comm]
                omega
              · rw [show (nb + 1) * (2 * len) = 2 * len * nb + 2 * len from by ring]
                omega
            have hmod : n % (2 * len) = n - 2 * len * nb := by
              have hdm := Nat.div_add_mod n (2 * len)
              rw [hdiv] at hdm
              omega
            rw [if_neg (by omega), if_pos (by omega), ihv (n - len), if_neg (by omega),
              ihv n, if_neg (by omega), hmod, hdiv, if_pos (by omega), if_neg (by omega)]
          · rw [if_neg (by omega), if_neg (by omega), ihv n, if_neg (by omega)]
            exact (if_neg (by omega)).symm

end MLKem

namespace MLKem

/-- Effect of the start-loop of one from_ntt layer: the zeta counter
decrements once per block, so block b uses index i0 - b. -/
theorem gsLayerAux (len : ℕ) (hlen : 0 < len) (i0 : ℕ) (c : Poly) :
    ∀ nb,
      ((List.range nb).foldl (fun st b =>
        ((List.range len).foldl (fun c jo => gsButterfly (zetas st.2) len (2 * len * b + jo) c)
          st.1, st.2 - 1)) (c, i0)).2 = i0 - nb ∧
      ∀ n, ((List.range nb).foldl (fun st b =>
        ((List.range len).foldl (fun c jo => gsButterfly (zetas st.2) len (2 * len * b + jo) c)
          st.1, st.2 - 1)) (c, i0)).1 n =
        if n < 2 * len * nb then
          if n % (2 * len) < len then (c n + c (n + len)) % Q
          else (zetas (i0 - n / (2 * len)) * (c n - c (n - len))) % Q
        else c n := by
  intro nb
  induction nb with
  | zero =>
    constructor
    · rfl
    · intro n
      rw [List.range_zero, List.foldl_nil, if_neg (by omega)]
  | succ nb ih =>
    obtain ⟨ihc, ihv⟩ := ih
    rw [List.range_succ, List.foldl_append, List.foldl_cons, List.foldl_nil]
    have hp3 : 2 * len * (nb + 1) = 2 * len * nb + 2 * len := by ring
    constructor
    · simp only []
      rw [ihc]
      omega
    · intro n
      simp only []
      rw [ihc]
      rw [gsBlock_eq (zetas (i0 - nb)) len (2 * len * nb) hlen _ len le_rfl n]
      by_cases hA : n < 2 * len * nb
      · rw [if_neg (by omega), if_neg (by omega), ihv n, if_pos hA]
        exact (if_pos (by omega)).symm
      · by_cases hB : n < 2 * len * nb + len
        · have hdiv : n / (2 * len) = nb := by
            apply Nat.div_eq_of_lt_le
            · rw [Nat.mul_comm]
              omega
            · rw [show (nb + 1) * (2 * len) = 2 * len * nb + 2 * len from by ring]
              omega
          have hmod : n % (2 * len) = n - 2 * len * nb := by
            have hdm := Nat.div_add_mod n (2 * len)
            rw [hdiv] at hdm
            omega
          rw [if_pos (by omega), ihv n, if_neg (by omega), ihv (n + len),
            if_neg (by omega), hmod, hdiv, if_pos (by omega), if_pos (by omega)]
        · by_cases hC : n < 2 * len * nb + 2 * len
          · have hdiv : n / (2 * len) = nb := by
              apply Nat.div_eq_of_lt_le
              · rw [Nat.mul_comm]
                omega
              · rw [show (nb + 1) * (2 * len) = 2 * len * nb + 2 * len from by ring]
                omega
            have hmod : n % (2 * len) = n - 2 * len * nb := by
              have hdm := Nat.div_add_mod n (2 * len)
              rw [hdiv] at hdm
              omega
            rw [if_neg (by omega), if_pos (by omega), ihv n, if_neg (by omega),
              ihv (n - len), if_neg (by omega), hmod, hdiv, if_pos (by omega),
              if_neg (by omega)]
          · rw [if_neg (by omega), if_neg (by omega), ihv n, if_neg (by omega)]
            exact (if_neg (by omega)).symm

end MLKem

namespace MLKem

/-- The coefficient field for the verification arguments. -/
abbrev Zq := ZMod 3329

/-- Reduction of an integer coefficient array to the field. -/
def castFun (c : Poly) : ℕ → Zq := fun n => ((c n : ℤ) : Zq)

/-- Pointwise form of one to_ntt layer. -/
def ctL (len i0 : ℕ) (c : Poly) : Poly := fun n =>
  if n < 256 then
    if n % (2 * len) < len then (c n + (zetas (i0 + n / (2 * len)) * c (n + len)) % Q) % Q
    else (c (n - len) - (zetas (i0 + n / (2 * len)) * c n) % Q) % Q
  else c n

/-- Pointwise form of one from_ntt layer. -/
def gsL (len i0 : ℕ) (c : Poly) : Poly := fun n =>
  if n < 256 then
    if n % (2 * len) < len then (c n + c (n + len)) % Q
    else (zetas (i0 - n / (2 * len)) * (c n - c (n - len))) % Q
  else c n

/-- One to_ntt layer over the field. -/
def ctZ (len i0 : ℕ) (x : ℕ → Zq) : ℕ → Zq := fun n =>
  if n < 256 then
    if n % (2 * len) < len then x n + (17 : Zq) ^ br7 (i0 + n / (2 * len)) * x (n + len)
    else x (n - len) - (17 : Zq) ^ br7 (i0 + n / (2 * len)) * x n
  else x n

/-- One from_ntt layer over the field. -/
def gsZ (len i0 : ℕ) (x : ℕ → Zq) : ℕ → Zq := fun n =>
  if n < 256 then
    if n % (2 * len) < len then x n + x (n + len)
    else (17 : Zq) ^ br7 (i0 - n / (2 * len)) * (x n - x (n - len))
  else x n

theorem intCast_emod_q (x : ℤ) : ((x % Q : ℤ) : Zq) = (x : Zq) := by
  rw [Int.emod_def]
  push_cast
  rw [show ((3329 : Zq)) = 0 from by decide]
  ring

theorem zetas_cast (i : ℕ) : ((zetas i : ℤ) : Zq) = (17 : Zq) ^ br7 i := by
  rw [zetas, intCast_emod_q]
  push_cast
  rfl

theorem ctLayer_eq (len i0 : ℕ) (hlen : 0 < len) (h : 2 * len * (256 / (2 * len)) = 256)
    (c : Poly) : ctLayer len (c, i0) = (ctL len i0 c, i0 + 256 / (2 * len)) := by
  have h2 := ctLayerAux len hlen i0 c (256 / (2 * len))
  rw [ctLayer]
  refine Prod.ext ?_ h2.1
  funext n
  rw [h2.2 n, h]
  rfl

theorem gsLayer_eq (len i0 : ℕ) (hlen : 0 < len) (h : 2 * len * (256 / (2 * len)) = 256)
    (c : Poly) : gsLayer len (c, i0) = (gsL len i0 c, i0 - 256 / (2 * len)) := by
  have h2 := gsLayerAux len hlen i0 c (256 / (2 * len))
  rw [gsLayer]
  refine Prod.ext ?_ h2.1
  funext n
  rw [h2.2 n, h]
  rfl

theorem castFun_ctL (len i0 : ℕ) (c : Poly) (n : ℕ) :
    castFun (ctL len i0 c) n = ctZ len i0 (castFun c) n := by
  simp only [castFun, ctL, ctZ]
  split_ifs with h1 h2
  · push_cast [intCast_emod_q, zetas_cast]
    rfl
  · push_cast [intCast_emod_q, zetas_cast]
    rfl
  · rfl

theorem castFun_gsL (len i0 : ℕ) (c : Poly) (n : ℕ) :
    castFun (gsL len i0 c) n = gsZ len i0 (castFun c) n := by
  simp only [castFun, gsL, gsZ]
  split_ifs with h1 h2
  · push_cast [intCast_emod_q, zetas_cast]
    rfl
  · push_cast [intCast_emod_q, zetas_cast]
    rfl
  · rfl

end MLKem

namespace MLKem

theorem zq_zeta_128 : (17 : Zq) ^ 128 = -1 := by decide

theorem zq_scale_unit : (3303 : Zq) * 128 = 1 := by decide

/-- One from_ntt layer undoes the matching to_ntt layer up to a factor 2,
when the zeta indices pair up to the exponent 128. -/
theorem gs_ct_pair (len m : ℕ) (hlen : 0 < len) (hsize : 2 * len * m = 256)
    (hbr : ∀ b, b < m → br7 (m + b) + br7 (2 * m - 1 - b) = 128) (x : ℕ → Zq) (n : ℕ) :
    gsZ len (2 * m - 1) (ctZ len m x) n = if n < 256 then 2 * x n else x n := by
  by_cases hn : n < 256
  · rw [if_pos hn]
    have hdm := Nat.div_add_mod n (2 * len)
    have hblt : n / (2 * len) < m := by
      rw [Nat.div_lt_iff_lt_mul (by omega : 0 < 2 * len)]
      rw [show m * (2 * len) = 2 * len * m from by ring]
      omega
    have hkey : 2 * len * (n / (2 * len)) + 2 * len ≤ 2 * len * m := by
      calc 2 * len * (n / (2 * len)) + 2 * len = 2 * len * (n / (2 * len) + 1) := by ring
        _ ≤ 2 * len * m := Nat.mul_le_mul_left _ (by omega)
    have hmodlt : n % (2 * len) < 2 * len := Nat.mod_lt _ (by omega)
    by_cases hr : n % (2 * len) < len
    · have hn2 : n + len < 256 := by omega
      have hd2 : (n + len) / (2 * len) = n / (2 * len) := by
        apply Nat.div_eq_of_lt_le
        · rw [show n / (2 * len) * (2 * len) = 2 * len * (n / (2 * len)) from by ring]
          omega
        · rw [show (n / (2 * len) + 1) * (2 * len) = 2 * len * (n / (2 * len)) + 2 * len from by
            ring]
          omega
      have hm2 : ¬ (n + len) % (2 * len) < len := by
        have hdm2 := Nat.div_add_mod (n + len) (2 * len)
        rw [hd2] at hdm2
        omega
      have e1 : ctZ len m x n = x n + (17 : Zq) ^ br7 (m + n / (2 * len)) * x (n + len) := by
        simp only [ctZ]
        rw [if_pos hn, if_pos hr]
      have e2 : ctZ len m x (n + len)
          = x n - (17 : Zq) ^ br7 (m + n / (2 * len)) * x (n + len) := by
        simp only [ctZ]
        rw [if_pos hn2, if_neg hm2, hd2, show n + len - len = n from by omega]
      simp only [gsZ]
      rw [if_pos hn, if_pos hr, e1, e2]
      ring
    · have hlen_le : len ≤ n % (2 * len) := by omega
      have hnl : len ≤ n := by omega
      have hn2 : n - len < 256 := by omega
      have hd2 : (n - len) / (2 * len) = n / (2 * len) := by
        apply Nat.div_eq_of_lt_le
        · rw [show n / (2 * len) * (2 * len) = 2 * len * (n / (2 * len)) from by ring]
          omega
        · rw [show (n / (2 * len) + 1) * (2 * len) = 2 * len * (n / (2 * len)) + 2 * len from by
            ring]
          omega
      have hm2 : (n - len) % (2 * len) < len := by
        have hdm2 := Nat.div_add_mod (n - len) (2 * len)
        rw [hd2] at hdm2
        omega
      have e1 : ctZ len m x n
          = x (n - len) - (17 : Zq) ^ br7 (m + n / (2 * len)) * x n := by
        simp only [ctZ]
        rw [if_pos hn, if_neg hr]
      have e2 : ctZ len m x (n - len)
          = x (n - len) + (17 : Zq) ^ br7 (m + n / (2 * len)) * x n := by
        simp only [ctZ]
        rw [if_pos hn2, if_pos hm2, hd2, show n - len + len = n from by omega]
      have hzmul : (17 : Zq) ^ br7 (2 * m - 1 - n / (2 * len))
          * (17 : Zq) ^ br7 (m + n / (2 * len)) = -1 := by
        rw [← pow_add]
        rw [show br7 (2 * m - 1 - n / (2 * len)) + br7 (m + n / (2 * len)) = 128 from by
          have hb := hbr (n / (2 * len)) hblt
          omega]
        exact zq_zeta_128
      simp only [gsZ]
      rw [if_pos hn, if_neg hr, e1, e2]
      linear_combination (-2 * x n) * hzmul
  · rw [if_neg hn]
    simp only [gsZ, ctZ]
    rw [if_neg hn, if_neg hn]

end MLKem

namespace MLKem

/-- Layers only read positions below 256 when evaluated below 256, so they
respect agreement on that range. -/
theorem gsZ_congr (len m i0 : ℕ) (hlen : 0 < len) (hsize : 2 * len * m = 256)
    (y₁ y₂ : ℕ → Zq) (h : ∀ k, k < 256 → y₁ k = y₂ k) (n : ℕ) (hn : n < 256) :
    gsZ len i0 y₁ n = gsZ len i0 y₂ n := by
  have hdm := Nat.div_add_mod n (2 * len)
  have hblt : n / (2 * len) < m := by
    rw [Nat.div_lt_iff_lt_mul (by omega : 0 < 2 * len)]
    rw [show m * (2 * len) = 2 * len * m from by ring]
    omega
  have hkey : 2 * len * (n / (2 * len)) + 2 * len ≤ 2 * len * m := by
    calc 2 * len * (n / (2 * len)) + 2 * len = 2 * len * (n / (2 * len) + 1) := by ring
      _ ≤ 2 * len * m := Nat.mul_le_mul_left _ (by omega)
  have hmodlt : n % (2 * len) < 2 * len := Nat.mod_lt _ (by omega)
  simp only [gsZ]
  by_cases hr : n % (2 * len) < len
  · rw [if_pos hn, if_pos hr, if_pos hn, if_pos hr, h n hn, h (n + len) (by omega)]
  · rw [if_pos hn, if_neg hr, if_pos hn, if_neg hr, h n hn, h (n - len) (by omega)]

theorem gsZ_smul (len i0 : ℕ) (k : Zq) (y : ℕ → Zq) (n : ℕ) :
    gsZ len i0 (fun r => k * y r) n = k * gsZ len i0 y n := by
  simp only [gsZ]
  split_ifs <;> ring


theorem collapse1 (x : ℕ → Zq) (n : ℕ) :
    gsZ 2 127 (ctZ 2 64 (x)) n = if n < 256 then 2 * x n else x n := by
  have h := gs_ct_pair 2 64 (by norm_num) (by norm_num) (by decide) x n
  norm_num at h ⊢
  exact h

theorem collapse2 (x : ℕ → Zq) (n : ℕ) :
    gsZ 4 63 (gsZ 2 127 (ctZ 2 64 (ctZ 4 32 (x)))) n = if n < 256 then 4 * x n else x n := by
  by_cases hn : n < 256
  · rw [gsZ_congr 4 32 63 (by norm_num) (by norm_num) _
      (fun r => (2 : Zq) * ctZ 4 32 x r)
      (fun r hr => by rw [collapse1 (ctZ 4 32 x) r, if_pos hr]) n hn]
    rw [gsZ_smul]
    have hp := gs_ct_pair 4 32 (by norm_num) (by norm_num) (by decide) x n
    norm_num at hp
    rw [hp, if_pos hn, if_pos hn]
    ring
  · have houter : ∀ y : ℕ → Zq, gsZ 4 63 y n = y n := fun y => by
      simp only [gsZ]
      rw [if_neg hn]
    have hinner : ∀ y : ℕ → Zq, ctZ 4 32 y n = y n := fun y => by
      simp only [ctZ]
      rw [if_neg hn]
    rw [houter, collapse1 (ctZ 4 32 x) n, if_neg hn, hinner, if_neg hn]

theorem collapse3 (x : ℕ → Zq) (n : ℕ) :
    gsZ 8 31 (gsZ 4 63 (gsZ 2 127 (ctZ 2 64 (ctZ 4 32 (ctZ 8 16 (x)))))) n = if n < 256 then 8 * x n else x n := by
  by_cases hn : n < 256
  · rw [gsZ_congr 8 16 31 (by norm_num) (by norm_num) _
      (fun r => (4 : Zq) * ctZ 8 16 x r)
      (fun r hr => by rw [collapse2 (ctZ 8 16 x) r, if_pos hr]) n hn]
    rw [gsZ_smul]
    have hp := gs_ct_pair 8 16 (by norm_num) (by norm_num) (by decide) x n
    norm_num at hp
    rw [hp, if_pos hn, if_pos hn]
    ring
  · have houter : ∀ y : ℕ → Zq, gsZ 8 31 y n = y n := fun y => by
      simp only [gsZ]
      rw [if_neg hn]
    have hinner : ∀ y : ℕ → Zq, ctZ 8 16 y n = y n := fun y => by
      simp only [ctZ]
      rw [if_neg hn]
    rw [houter, collapse2 (ctZ 8 16 x) n, if_neg hn, hinner, if_neg hn]

theorem collapse4 (x : ℕ → Zq) (n : ℕ) :
    gsZ 16 15 (gsZ 8 31 (gsZ 4 63 (gsZ 2 127 (ctZ 2 64 (ctZ 4 32 (ctZ 8 16 (ctZ 16 8 (x)))))))) n = if n < 256 then 16 * x n else x n := by
  by_cases hn : n < 256
  · rw [gsZ_congr 16 8 15 (by norm_num) (by norm_num) _
      (fun r => (8 : Zq) * ctZ 16 8 x r)
      (fun r hr => by rw [collapse3 (ctZ 16 8 x) r, if_pos hr]) n hn]
    rw [gsZ_smul]
    have hp := gs_ct_pair 16 8 (by norm_num) (by norm_num) (by decide) x n
    norm_num at hp
    rw [hp, if_pos hn, if_pos hn]
    ring
  · have houter : ∀ y : ℕ → Zq, gsZ 16 15 y n = y n := fun y => by
      simp only [gsZ]
      rw [if_neg hn]
    have hinner : ∀ y : ℕ → Zq, ctZ 16 8 y n = y n := fun y => by
      simp only [ctZ]
      rw [if_neg hn]
    rw [houter, collapse3 (ctZ 16 8 x) n, if_neg hn, hinner, if_neg hn]

theorem collapse5 (x : ℕ → Zq) (n : ℕ) :
    gsZ 32 7 (gsZ 16 15 (gsZ 8 31 (gsZ 4 63 (gsZ 2 127 (ctZ 2 64 (ctZ 4 32 (ctZ 8 16 (ctZ 16 8 (ctZ 32 4 (x)))))))))) n = if n < 256 then 32 * x n else x n := by
  by_cases hn : n < 256
  · rw [gsZ_congr 32 4 7 (by norm_num) (by norm_num) _
      (fun r => (16 : Zq) * ctZ 32 4 x r)
      (fun r hr => by rw [collapse4 (ctZ 32 4 x) r, if_pos hr]) n hn]
    rw [gsZ_smul]
    have hp := gs_ct_pair 32 4 (by norm_num) (by norm_num) (by decide) x n
    norm_num at hp
    rw [hp, if_pos hn, if_pos hn]
    ring
  · have houter : ∀ y : ℕ → Zq, gsZ 32 7 y n = y n := fun y => by
      simp only [gsZ]
      rw [if_neg hn]
    have hinner : ∀ y : ℕ → Zq, ctZ 32 4 y n = y n := fun y => by
      simp only [ctZ]
      rw [if_neg hn]
    rw [houter, collapse4 (ctZ 32 4 x) n, if_neg hn, hinner, if_neg hn]

theorem collapse6 (x : ℕ → Zq) (n : ℕ) :
    gsZ 64 3 (gsZ 32 7 (gsZ 16 15 (gsZ 8 31 (gsZ 4 63 (gsZ 2 127 (ctZ 2 64 (ctZ 4 32 (ctZ 8 16 (ctZ 16 8 (ctZ 32 4 (ctZ 64 2 (x)))))))))))) n = if n < 256 then 64 * x n else x n := by
  by_cases hn : n < 256
  · rw [gsZ_congr 64 2 3 (by norm_num) (by norm_num) _
      (fun r => (32 : Zq) * ctZ 64 2 x r)
      (fun r hr => by rw [collapse5 (ctZ 64 2 x) r, if_pos hr]) n hn]
    rw [gsZ_smul]
    have hp := gs_ct_pair 64 2 (by norm_num) (by norm_num) (by decide) x n
    norm_num at hp
    rw [hp, if_pos hn, if_pos hn]
    ring
  · have houter : ∀ y : ℕ → Zq, gsZ 64 3 y n = y n := fun y => by
      simp only [gsZ]
      rw [if_neg hn]
    have hinner : ∀ y : ℕ → Zq, ctZ 64 2 y n = y n := fun y => by
      simp only [ctZ]
      rw [if_neg hn]
    rw [houter, collapse5 (ctZ 64 2 x) n, if_neg hn, hinner, if_neg hn]

theorem collapse7 (x : ℕ → Zq) (n : ℕ) :
    gsZ 128 1 (gsZ 64 3 (gsZ 32 7 (gsZ 16 15 (gsZ 8 31 (gsZ 4 63 (gsZ 2 127 (ctZ 2 64 (ctZ 4 32 (ctZ 8 16 (ctZ 16 8 (ctZ 32 4 (ctZ 64 2 (ctZ 128 1 (x)))))))))))))) n = if n < 256 then 128 * x n else x n := by
  by_cases hn : n < 256
  · rw [gsZ_congr 128 1 1 (by norm_num) (by norm_num) _
      (fun r => (64 : Zq) * ctZ 128 1 x r)
      (fun r hr => by rw [collapse6 (ctZ 128 1 x) r, if_pos hr]) n hn]
    rw [gsZ_smul]
    have hp := gs_ct_pair 128 1 (by norm_num) (by norm_num) (by decide) x n
    norm_num at hp
    rw [hp, if_pos hn, if_pos hn]
    ring
  · have houter : ∀ y : ℕ → Zq, gsZ 128 1 y n = y n := fun y => by
      simp only [gsZ]
      rw [if_neg hn]
    have hinner : ∀ y : ℕ → Zq, ctZ 128 1 y n = y n := fun y => by
      simp only [ctZ]
      rw [if_neg hn]
    rw [houter, collapse6 (ctZ 128 1 x) n, if_neg hn, hinner, if_neg hn]

end MLKem

namespace MLKem

/-- to_ntt as the composition of its seven pointwise layers. -/
theorem to_ntt_eq (a : Poly) :
    to_ntt a = ctL 2 64 (ctL 4 32 (ctL 8 16 (ctL 16 8 (ctL 32 4 (ctL 64 2 (ctL 128 1 (a))))))) := by
  have s128 : ctLayer 128 (a, 1) = (ctL 128 1 (a), 2) := by
    have h := ctLayer_eq 128 1 (by norm_num) (by norm_num) (a)
    norm_num at h
    exact h
  have s64 : ctLayer 64 (ctL 128 1 (a), 2) = (ctL 64 2 (ctL 128 1 (a)), 4) := by
    have h := ctLayer_eq 64 2 (by norm_num) (by norm_num) (ctL 128 1 (a))
    norm_num at h
    exact h
  have s32 : ctLayer 32 (ctL 64 2 (ctL 128 1 (a)), 4) = (ctL 32 4 (ctL 64 2 (ctL 128 1 (a))), 8) := by
    have h := ctLayer_eq 32 4 (by norm_num) (by norm_num) (ctL 64 2 (ctL 128 1 (a)))
    norm_num at h
    exact h
  have s16 : ctLayer 16 (ctL 32 4 (ctL 64 2 (ctL 128 1 (a))), 8) = (ctL 16 8 (ctL 32 4 (ctL 64 2 (ctL 128 1 (a)))), 16) := by
    have h := ctLayer_eq 16 8 (by norm_num) (by norm_num) (ctL 32 4 (ctL 64 2 (ctL 128 1 (a))))
    norm_num at h
    exact h
  have s8 : ctLayer 8 (ctL 16 8 (ctL 32 4 (ctL 64 2 (ctL 128 1 (a)))), 16) = (ctL 8 16 (ctL 16 8 (ctL 32 4 (ctL 64 2 (ctL 128 1 (a))))), 32) := by
    have h := ctLayer_eq 8 16 (by norm_num) (by norm_num) (ctL 16 8 (ctL 32 4 (ctL 64 2 (ctL 128 1 (a)))))
    norm_num at h
    exact h
  have s4 : ctLayer 4 (ctL 8 16 (ctL 16 8 (ctL 32 4 (ctL 64 2 (ctL 128 1 (a))))), 32) = (ctL 4 32 (ctL 8 16 (ctL 16 8 (ctL 32 4 (ctL 64 2 (ctL 128 1 (a)))))), 64) := by
    have h := ctLayer_eq 4 32 (by norm_num) (by norm_num) (ctL 8 16 (ctL 16 8 (ctL 32 4 (ctL 64 2 (ctL 128 1 (a))))))
    norm_num at h
    exact h
  have s2 : ctLayer 2 (ctL 4 32 (ctL 8 16 (ctL 16 8 (ctL 32 4 (ctL 64 2 (ctL 128 1 (a)))))), 64) = (ctL 2 64 (ctL 4 32 (ctL 8 16 (ctL 16 8 (ctL 32 4 (ctL 64 2 (ctL 128 1 (a))))))), 128) := by
    have h := ctLayer_eq 2 64 (by norm_num) (by norm_num) (ctL 4 32 (ctL 8 16 (ctL 16 8 (ctL 32 4 (ctL 64 2 (ctL 128 1 (a)))))))
    norm_num at h
    exact h
  rw [to_ntt]
  simp only [List.foldl_cons, List.foldl_nil]
  rw [s128, s64, s32, s16, s8, s4, s2]

/-- from_ntt as the composition of its seven pointwise layers and the final
scaling by N_INV. -/
theorem from_ntt_eq (f : Poly) :
    from_ntt f = fun n => (gsL 128 1 (gsL 64 3 (gsL 32 7 (gsL 16 15 (gsL 8 31 (gsL 4 63 (gsL 2 127 (f)))))))) n * 3303 % Q := by
  have s2 : gsLayer 2 (f, 127) = (gsL 2 127 (f), 63) := by
    have h := gsLayer_eq 2 127 (by norm_num) (by norm_num) (f)
    norm_num at h
    exact h
  have s4 : gsLayer 4 (gsL 2 127 (f), 63) = (gsL 4 63 (gsL 2 127 (f)), 31) := by
    have h := gsLayer_eq 4 63 (by norm_num) (by norm_num) (gsL 2 127 (f))
    norm_num at h
    exact h
  have s8 : gsLayer 8 (gsL 4 63 (gsL 2 127 (f)), 31) = (gsL 8 31 (gsL 4 63 (gsL 2 127 (f))), 15) := by
    have h := gsLayer_eq 8 31 (by norm_num) (by norm_num) (gsL 4 63 (gsL 2 127 (f)))
    norm_num at h
    exact h
  have s16 : gsLayer 16 (gsL 8 31 (gsL 4 63 (gsL 2 127 (f))), 15) = (gsL 16 15 (gsL 8 31 (gsL 4 63 (gsL 2 127 (f)))), 7) := by
    have h := gsLayer_eq 16 15 (by norm_num) (by norm_num) (gsL 8 31 (gsL 4 63 (gsL 2 127 (f))))
    norm_num at h
    exact h
  have s32 : gsLayer 32 (gsL 16 15 (gsL 8 31 (gsL 4 63 (gsL 2 127 (f)))), 7) = (gsL 32 7 (gsL 16 15 (gsL 8 31 (gsL 4 63 (gsL 2 127 (f))))), 3) := by
    have h := gsLayer_eq 32 7 (by norm_num) (by norm_num) (gsL 16 15 (gsL 8 31 (gsL 4 63 (gsL 2 127 (f)))))
    norm_num at h
    exact h
  have s64 : gsLayer 64 (gsL 32 7 (gsL 16 15 (gsL 8 31 (gsL 4 63 (gsL 2 127 (f))))), 3) = (gsL 64 3 (gsL 32 7 (gsL 16 15 (gsL 8 31 (gsL 4 63 (gsL 2 127 (f)))))), 1) := by
    have h := gsLayer_eq 64 3 (by norm_num) (by norm_num) (gsL 32 7 (gsL 16 15 (gsL 8 31 (gsL 4 63 (gsL 2 127 (f))))))
    norm_num at h
    exact h
  have s128 : gsLayer 128 (gsL 64 3 (gsL 32 7 (gsL 16 15 (gsL 8 31 (gsL 4 63 (gsL 2 127 (f)))))), 1) = (gsL 128 1 (gsL 64 3 (gsL 32 7 (gsL 16 15 (gsL 8 31 (gsL 4 63 (gsL 2 127 (f))))))), 0) := by
    have h := gsLayer_eq 128 1 (by norm_num) (by norm_num) (gsL 64 3 (gsL 32 7 (gsL 16 15 (gsL 8 31 (gsL 4 63 (gsL 2 127 (f)))))))
    norm_num at h
    exact h
  rw [from_ntt]
  simp only [List.foldl_cons, List.foldl_nil]
  rw [s2, s4, s8, s16, s32, s64, s128]

theorem castFun_ctL_fun (len i0 : ℕ) (c : Poly) :
    castFun (ctL len i0 c) = ctZ len i0 (castFun c) :=
  funext (castFun_ctL len i0 c)

theorem castFun_gsL_fun (len i0 : ℕ) (c : Poly) :
    castFun (gsL len i0 c) = gsZ len i0 (castFun c) :=
  funext (castFun_gsL len i0 c)

theorem castFun_to_ntt (a : Poly) :
    castFun (to_ntt a) = ctZ 2 64 (ctZ 4 32 (ctZ 8 16 (ctZ 16 8 (ctZ 32 4 (ctZ 64 2 (ctZ 128 1 (castFun a))))))) := by
  rw [to_ntt_eq]
  simp only [castFun_ctL_fun]

theorem castFun_from_ntt (f : Poly) (n : ℕ) :
    castFun (from_ntt f) n = 3303 * (gsZ 128 1 (gsZ 64 3 (gsZ 32 7 (gsZ 16 15 (gsZ 8 31 (gsZ 4 63 (gsZ 2 127 (castFun f)))))))) n := by
  rw [from_ntt_eq]
  have h : castFun (fun n => (gsL 128 1 (gsL 64 3 (gsL 32 7 (gsL 16 15 (gsL 8 31 (gsL 4 63 (gsL 2 127 (f)))))))) n * 3303 % Q) n
      = ((((gsL 128 1 (gsL 64 3 (gsL 32 7 (gsL 16 15 (gsL 8 31 (gsL 4 63 (gsL 2 127 (f)))))))) n * 3303 % Q : ℤ) : Zq)) := rfl
  rw [h, intCast_emod_q]
  push_cast
  have h2 : (((gsL 128 1 (gsL 64 3 (gsL 32 7 (gsL 16 15 (gsL 8 31 (gsL 4 63 (gsL 2 127 (f)))))))) n : ℤ) : Zq) = (gsZ 128 1 (gsZ 64 3 (gsZ 32 7 (gsZ 16 15 (gsZ 8 31 (gsZ 4 63 (gsZ 2 127 (castFun f)))))))) n :=
    congrFun (show castFun (gsL 128 1 (gsL 64 3 (gsL 32 7 (gsL 16 15 (gsL 8 31 (gsL 4 63 (gsL 2 127 (f)))))))) = gsZ 128 1 (gsZ 64 3 (gsZ 32 7 (gsZ 16 15 (gsZ 8 31 (gsZ 4 63 (gsZ 2 127 (castFun f))))))) from by simp only [castFun_gsL_fun]) n
  rw [h2]
  ring

end MLKem

namespace MLKem

/-- Every coefficient written by a pointwise layer at a position below 256
is a Euclidean residue, hence in [0, q). -/
theorem ctL_range (len i0 : ℕ) (c : Poly) (n : ℕ) (hn : n < 256) :
    0 ≤ ctL len i0 c n ∧ ctL len i0 c n < Q := by
  simp only [ctL]
  rw [if_pos hn]
  split_ifs <;>
    exact ⟨Int.emod_nonneg _ (by norm_num), Int.emod_lt_of_pos _ (by norm_num)⟩

theorem from_ntt_range (f : Poly) (n : ℕ) : 0 ≤ from_ntt f n ∧ from_ntt f n < Q := by
  rw [from_ntt_eq]
  exact ⟨Int.emod_nonneg _ (by norm_num), Int.emod_lt_of_pos _ (by norm_num)⟩

theorem to_ntt_range (a : Poly) (n : ℕ) (hn : n < 256) :
    0 ≤ to_ntt a n ∧ to_ntt a n < Q := by
  rw [to_ntt_eq]
  exact ctL_range _ _ _ _ hn

/-- Two integers in [0, q) with the same image in the field are equal. -/
theorem int_eq_of_zq (x y : ℤ) (hx0 : 0 ≤ x) (hx : x < 3329) (hy0 : 0 ≤ y) (hy : y < 3329)
    (h : (x : Zq) = (y : Zq)) : x = y := by
  have hmod := (ZMod.intCast_eq_intCast_iff x y 3329).mp h
  rw [Int.ModEq] at hmod
  omega

/-- C4: the NTT round trip: for every coefficient array with 256 entries in
[0, q), from_ntt (to_ntt a) agrees with a on all 256 positions. -/
theorem ntt_roundtrip (a : Poly) (ha : ∀ i, i < 256 → 0 ≤ a i ∧ a i < Q) :
    ∀ i, i < 256 → from_ntt (to_ntt a) i = a i := by
  intro i hi
  have h1 := from_ntt_range (to_ntt a) i
  have h2 := ha i hi
  apply int_eq_of_zq _ _ h1.1 h1.2 h2.1 h2.2
  have hc : castFun (from_ntt (to_ntt a)) i = castFun a i := by
    rw [castFun_from_ntt]
    have hrw : castFun (to_ntt a)
        = ctZ 2 64 (ctZ 4 32 (ctZ 8 16 (ctZ 16 8 (ctZ 32 4 (ctZ 64 2 (ctZ 128 1
          (castFun a))))))) := castFun_to_ntt a
    rw [hrw]
    rw [collapse7 (castFun a) i, if_pos hi]
    rw [show (3303 : Zq) * (128 * castFun a i) = (3303 * 128) * castFun a i from by ring]
    rw [zq_scale_unit, one_mul]
  exact hc

end MLKem

namespace MLKem

/-- Exponent bookkeeping for the forward NTT invariant: after layer t the
block b of the state holds the input folded at the power EE t b of zeta. -/
def EE : ℕ → ℕ → ℕ
  | 0, _ => 128
  | t + 1, b => br7 (2 ^ t + b / 2) + (if b % 2 = 0 then 0 else 128)

theorem EE_step : ∀ t, t < 7 → ∀ b, b < 2 ^ t →
    (2 * br7 (2 ^ t + b)) % 256 = EE t b % 256 := by decide

theorem EE_final : ∀ b, b < 128 → EE 7 b = 2 * br7 b + 1 := by decide

theorem zq_pow_256 : (17 : Zq) ^ 256 = 1 := by decide

theorem zq_pow_congr (a b : ℕ) (h : a % 256 = b % 256) : (17 : Zq) ^ a = (17 : Zq) ^ b := by
  rw [show a = 256 * (a / 256) + a % 256 from (Nat.div_add_mod a 256).symm,
    show b = 256 * (b / 256) + b % 256 from (Nat.div_add_mod b 256).symm]
  rw [pow_add, pow_add, pow_mul, pow_mul, zq_pow_256, one_pow, one_pow, h]

theorem sum_range_even_odd {M : Type} [AddCommMonoid M] (g : ℕ → M) :
    ∀ m, ∑ u ∈ Finset.range (2 * m), g u
      = (∑ v ∈ Finset.range m, g (2 * v)) + ∑ v ∈ Finset.range m, g (2 * v + 1) := by
  intro m
  induction m with
  | zero => simp
  | succ k ih =>
    rw [show 2 * (k + 1) = 2 * k + 1 + 1 from by ring]
    rw [Finset.sum_range_succ, Finset.sum_range_succ, Finset.sum_range_succ,
      Finset.sum_range_succ, ih]
    abel

end MLKem

namespace MLKem

/-- One forward layer refines the folding invariant: if each block of size
2L holds the input folded at the square root exponents eIn, the layer
produces blocks of size L folded at exponents eOut. -/
theorem ct_inv_step (L L2 m m2 : ℕ) (hL : 0 < L) (hL2 : L2 = 2 * L) (hm2 : m2 = 2 * m)
    (hm : 2 * L * m = 256)
    (eIn eOut : ℕ → ℕ) (x f : ℕ → Zq)
    (hx : ∀ b t, b < m → t < L2 →
      x (L2 * b + t) = ∑ u ∈ Finset.range m, f (t + L2 * u) * ((17 : Zq) ^ eIn b) ^ u)
    (he : ∀ b, b < m → (2 * br7 (m + b)) % 256 = eIn b % 256)
    (heOut : ∀ b, b < m2 →
      eOut b % 256 = (br7 (m + b / 2) + (if b % 2 = 0 then 0 else 128)) % 256) :
    ∀ b t, b < m2 → t < L →
      ctZ L m x (L * b + t)
        = ∑ u ∈ Finset.range m2, f (t + L * u) * ((17 : Zq) ^ eOut b) ^ u := by
  subst hL2
  subst hm2
  intro b t hb ht
  have hkey : ∀ bb, bb < m → 2 * L * bb + 2 * L ≤ 2 * L * m := by
    intro bb hbb
    calc 2 * L * bb + 2 * L = 2 * L * (bb + 1) := by ring
      _ ≤ 2 * L * m := Nat.mul_le_mul_left _ (by omega)
  rcases Nat.even_or_odd b with hpar | hpar
  · obtain ⟨bb, hbb⟩ := hpar
    have hb2 : b = 2 * bb := by omega
    subst hb2
    have hbbm : bb < m := by omega
    have hk := hkey bb hbbm
    have hn : L * (2 * bb) + t = 2 * L * bb + t := by ring
    rw [hn]
    have hn256 : 2 * L * bb + t < 256 := by omega
    have hdiv : (2 * L * bb + t) / (2 * L) = bb := by
      apply Nat.div_eq_of_lt_le
      · rw [show bb * (2 * L) = 2 * L * bb from by ring]
        omega
      · rw [show (bb + 1) * (2 * L) = 2 * L * bb + 2 * L from by ring]
        omega
    have hmod : (2 * L * bb + t) % (2 * L) = t := by
      have hdm := Nat.div_add_mod (2 * L * bb + t) (2 * L)
      rw [hdiv] at hdm
      omega
    simp only [ctZ]
    rw [if_pos hn256, hmod, hdiv, if_pos ht]
    rw [hx bb t hbbm (by omega)]
    rw [show 2 * L * bb + t + L = 2 * L * bb + (t + L) from by ring]
    rw [hx bb (t + L) hbbm (by omega)]
    have h1 := heOut (2 * bb) (by omega)
    rw [show 2 * bb / 2 = bb from by omega, show 2 * bb % 2 = 0 from by omega, if_pos rfl] at h1
    have hz2 : (17 : Zq) ^ eOut (2 * bb) * (17 : Zq) ^ eOut (2 * bb)
        = (17 : Zq) ^ eIn bb := by
      rw [← pow_add]
      apply zq_pow_congr
      have h2 := he bb hbbm
      omega
    have hz1 : (17 : Zq) ^ eOut (2 * bb) = (17 : Zq) ^ br7 (m + bb) :=
      zq_pow_congr _ _ (by omega)
    rw [sum_range_even_odd (fun u => f (t + L * u) * ((17 : Zq) ^ eOut (2 * bb)) ^ u) m]
    have heven : (∑ v ∈ Finset.range m, f (t + L * (2 * v)) * ((17 : Zq) ^ eOut (2 * bb)) ^ (2 * v))
        = ∑ v ∈ Finset.range m, f (t + 2 * L * v) * ((17 : Zq) ^ eIn bb) ^ v := by
      apply Finset.sum_congr rfl
      intro v hv
      rw [show t + L * (2 * v) = t + 2 * L * v from by ring, pow_mul, pow_two, hz2]
    have hodd : (∑ v ∈ Finset.range m,
          f (t + L * (2 * v + 1)) * ((17 : Zq) ^ eOut (2 * bb)) ^ (2 * v + 1))
        = (17 : Zq) ^ br7 (m + bb)
          * ∑ v ∈ Finset.range m, f (t + L + 2 * L * v) * ((17 : Zq) ^ eIn bb) ^ v := by
      rw [Finset.mul_sum]
      apply Finset.sum_congr rfl
      intro v hv
      rw [show t + L * (2 * v + 1) = t + L + 2 * L * v from by ring, pow_succ, pow_mul,
        pow_two, hz2, hz1]
      ring
    rw [heven, hodd]
  · obtain ⟨bb, hbb⟩ := hpar
    subst hbb
    have hbbm : bb < m := by omega
    have hk := hkey bb hbbm
    have hn : L * (2 * bb + 1) + t = 2 * L * bb + (L + t) := by ring
    rw [hn]
    have hn256 : 2 * L * bb + (L + t) < 256 := by omega
    have hdiv : (2 * L * bb + (L + t)) / (2 * L) = bb := by
      apply Nat.div_eq_of_lt_le
      · rw [show bb * (2 * L) = 2 * L * bb from by ring]
        omega
      · rw [show (bb + 1) * (2 * L) = 2 * L * bb + 2 * L from by ring]
        omega
    have hmod : (2 * L * bb + (L + t)) % (2 * L) = L + t := by
      have hdm := Nat.div_add_mod (2 * L * bb + (L + t)) (2 * L)
      rw [hdiv] at hdm
      omega
    simp only [ctZ]
    rw [if_pos hn256, hmod, hdiv, if_neg (by omega)]
    rw [show 2 * L * bb + (L + t) - L = 2 * L * bb + t from by omega]
    rw [hx bb t hbbm (by omega)]
    rw [show 2 * L * bb + (L + t) = 2 * L * bb + (t + L) from by ring]
    rw [hx bb (t + L) hbbm (by omega)]
    have h1 := heOut (2 * bb + 1) (by omega)
    rw [show (2 * bb + 1) / 2 = bb from by omega, show (2 * bb + 1) % 2 = 1 from by omega,
      if_neg (by omega)] at h1
    have hz2 : (17 : Zq) ^ eOut (2 * bb + 1) * (17 : Zq) ^ eOut (2 * bb + 1)
        = (17 : Zq) ^ eIn bb := by
      rw [← pow_add]
      apply zq_pow_congr
      have h2 := he bb hbbm
      omega
    have hzneg : (17 : Zq) ^ eOut (2 * bb + 1) = -((17 : Zq) ^ br7 (m + bb)) := by
      rw [show (17 : Zq) ^ eOut (2 * bb + 1) = (17 : Zq) ^ (br7 (m + bb) + 128) from
        zq_pow_congr _ _ (by omega)]
      rw [pow_add, zq_zeta_128]
      ring
    rw [sum_range_even_odd (fun u => f (t + L * u) * ((17 : Zq) ^ eOut (2 * bb + 1)) ^ u) m]
    have heven : (∑ v ∈ Finset.range m,
          f (t + L * (2 * v)) * ((17 : Zq) ^ eOut (2 * bb + 1)) ^ (2 * v))
        = ∑ v ∈ Finset.range m, f (t + 2 * L * v) * ((17 : Zq) ^ eIn bb) ^ v := by
      apply Finset.sum_congr rfl
      intro v hv
      rw [show t + L * (2 * v) = t + 2 * L * v from by ring, pow_mul, pow_two, hz2]
    have hodd : (∑ v ∈ Finset.range m,
          f (t + L * (2 * v + 1)) * ((17 : Zq) ^ eOut (2 * bb + 1)) ^ (2 * v + 1))
        = -((17 : Zq) ^ br7 (m + bb)
          * ∑ v ∈ Finset.range m, f (t + L + 2 * L * v) * ((17 : Zq) ^ eIn bb) ^ v) := by
      rw [Finset.mul_sum, ← Finset.sum_neg_distrib]
      apply Finset.sum_congr rfl
      intro v hv
      rw [show t + L * (2 * v + 1) = t + L + 2 * L * v from by ring, pow_succ, pow_mul,
        pow_two, hz2, hzneg]
      ring
    rw [heven, hodd]
    ring

end MLKem

namespace MLKem

/-- The forward layer chain evaluates each pair of the input as the folding
of the original coefficients at the bit-reversed odd powers of zeta. -/
theorem fwd_closed (x : ℕ → Zq) : ∀ b t, b < 128 → t < 2 →
    (ctZ 2 64 (ctZ 4 32 (ctZ 8 16 (ctZ 16 8 (ctZ 32 4 (ctZ 64 2 (ctZ 128 1 (x)))))))) (2 * b + t)
      = ∑ u ∈ Finset.range 128, x (t + 2 * u) * ((17 : Zq) ^ EE 7 b) ^ u := by
  have inv0 : ∀ b t, b < 1 → t < 256 →
      x (256 * b + t) = ∑ u ∈ Finset.range 1, x (t + 256 * u) * ((17 : Zq) ^ EE 0 b) ^ u := by
    intro b t hb ht
    have hb0 : b = 0 := by omega
    subst hb0
    simp
  have inv1 : ∀ b t, b < 2 → t < 128 →
      (ctZ 128 1 (x)) (128 * b + t)
        = ∑ u ∈ Finset.range 2, x (t + 128 * u) * ((17 : Zq) ^ EE 1 b) ^ u :=
    ct_inv_step 128 256 1 2 (by norm_num) (by norm_num) (by norm_num) (by norm_num)
      (EE 0) (EE 1) (x) x inv0 (by decide) (by decide)
  have inv2 : ∀ b t, b < 4 → t < 64 →
      (ctZ 64 2 (ctZ 128 1 (x))) (64 * b + t)
        = ∑ u ∈ Finset.range 4, x (t + 64 * u) * ((17 : Zq) ^ EE 2 b) ^ u :=
    ct_inv_step 64 128 2 4 (by norm_num) (by norm_num) (by norm_num) (by norm_num)
      (EE 1) (EE 2) (ctZ 128 1 (x)) x inv1 (by decide) (by decide)
  have inv3 : ∀ b t, b < 8 → t < 32 →
      (ctZ 32 4 (ctZ 64 2 (ctZ 128 1 (x)))) (32 * b + t)
        = ∑ u ∈ Finset.range 8, x (t + 32 * u) * ((17 : Zq) ^ EE 3 b) ^ u :=
    ct_inv_step 32 64 4 8 (by norm_num) (by norm_num) (by norm_num) (by norm_num)
      (EE 2) (EE 3) (ctZ 64 2 (ctZ 128 1 (x))) x inv2 (by decide) (by decide)
  have inv4 : ∀ b t, b < 16 → t < 16 →
      (ctZ 16 8 (ctZ 32 4 (ctZ 64 2 (ctZ 128 1 (x))))) (16 * b + t)
        = ∑ u ∈ Finset.range 16, x (t + 16 * u) * ((17 : Zq) ^ EE 4 b) ^ u :=
    ct_inv_step 16 32 8 16 (by norm_num) (by norm_num) (by norm_num) (by norm_num)
      (EE 3) (EE 4) (ctZ 32 4 (ctZ 64 2 (ctZ 128 1 (x)))) x inv3 (by decide) (by decide)
  have inv5 : ∀ b t, b < 32 → t < 8 →
      (ctZ 8 16 (ctZ 16 8 (ctZ 32 4 (ctZ 64 2 (ctZ 128 1 (x)))))) (8 * b + t)
        = ∑ u ∈ Finset.range 32, x (t + 8 * u) * ((17 : Zq) ^ EE 5 b) ^ u :=
    ct_inv_step 8 16 16 32 (by norm_num) (by norm_num) (by norm_num) (by norm_num)
      (EE 4) (EE 5) (ctZ 16 8 (ctZ 32 4 (ctZ 64 2 (ctZ 128 1 (x))))) x inv4 (by decide) (by decide)
  have inv6 : ∀ b t, b < 64 → t < 4 →
      (ctZ 4 32 (ctZ 8 16 (ctZ 16 8 (ctZ 32 4 (ctZ 64 2 (ctZ 128 1 (x))))))) (4 * b + t)
        = ∑ u ∈ Finset.range 64, x (t + 4 * u) * ((17 : Zq) ^ EE 6 b) ^ u :=
    ct_inv_step 4 8 32 64 (by norm_num) (by norm_num) (by norm_num) (by norm_num)
      (EE 5) (EE 6) (ctZ 8 16 (ctZ 16 8 (ctZ 32 4 (ctZ 64 2 (ctZ 128 1 (x)))))) x inv5 (by decide) (by decide)
  have inv7 : ∀ b t, b < 128 → t < 2 →
      (ctZ 2 64 (ctZ 4 32 (ctZ 8 16 (ctZ 16 8 (ctZ 32 4 (ctZ 64 2 (ctZ 128 1 (x)))))))) (2 * b + t)
        = ∑ u ∈ Finset.range 128, x (t + 2 * u) * ((17 : Zq) ^ EE 7 b) ^ u :=
    ct_inv_step 2 4 64 128 (by norm_num) (by norm_num) (by norm_num) (by norm_num)
      (EE 6) (EE 7) (ctZ 4 32 (ctZ 8 16 (ctZ 16 8 (ctZ 32 4 (ctZ 64 2 (ctZ 128 1 (x))))))) x inv6 (by decide) (by decide)
  exact inv7

end MLKem

namespace MLKem

/-- Embedding of the Mul instance for Polynomial from polynomial.rs:
schoolbook negacyclic convolution into a zero-initialised array, reducing
after every accumulation, with the sign negated on wrap-around. -/
def mulPoly (a b : Poly) : Poly :=
  (List.range 256).foldl (fun c i =>
    (List.range 256).foldl (fun c j =>
      if i + j < 256 then Function.update c (i + j) ((c (i + j) + a i * b j) % Q)
      else Function.update c (i + j - 256) ((c (i + j - 256) - a i * b j) % Q)) c) zeroPoly

/-- Embedding of the Mul instance for PolynomialNTT from polynomial.rs: the
base-case products, written pair by pair into a zero-initialised array. -/
def mulNTT (a b : Poly) : Poly :=
  (List.range 128).foldl (fun c i =>
    let gamma := (zetas i * zetas i) % Q * 17 % Q
    Function.update
      (Function.update c (2 * i)
        ((a (2 * i) * b (2 * i) + (a (2 * i + 1) * b (2 * i + 1)) % Q * gamma) % Q))
      (2 * i + 1)
      ((a (2 * i) * b (2 * i + 1) + a (2 * i + 1) * b (2 * i)) % Q)) zeroPoly

/-- Pointwise value of the base-case product. -/
theorem mulNTT_apply (a b : Poly) : ∀ r, r ≤ 128 → ∀ n,
    ((List.range r).foldl (fun c i =>
      let gamma := (zetas i * zetas i) % Q * 17 % Q
      Function.update
        (Function.update c (2 * i)
          ((a (2 * i) * b (2 * i) + (a (2 * i + 1) * b (2 * i + 1)) % Q * gamma) % Q))
        (2 * i + 1)
        ((a (2 * i) * b (2 * i + 1) + a (2 * i + 1) * b (2 * i)) % Q)) zeroPoly) n =
      if n < 2 * r then
        if n % 2 = 0 then
          (a n * b n + (a (n + 1) * b (n + 1)) % Q * ((zetas (n / 2) * zetas (n / 2)) % Q * 17 % Q)) % Q
        else (a (n - 1) * b n + a n * b (n - 1)) % Q
      else 0 := by
  intro r
  induction r with
  | zero =>
    intro hr n
    rw [List.range_zero, List.foldl_nil, if_neg (by omega)]
    rfl
  | succ k ih =>
    intro hr n
    rw [List.range_succ, List.foldl_append, List.foldl_cons, List.foldl_nil]
    simp only [Function.update_apply]
    by_cases h1 : n = 2 * k + 1
    · subst h1
      rw [if_pos rfl, if_pos (by omega), if_neg (by omega)]
      rw [show 2 * k + 1 - 1 = 2 * k from by omega]
    · rw [if_neg h1]
      by_cases h2 : n = 2 * k
      · subst h2
        rw [if_pos rfl, if_pos (by omega), if_pos (by omega)]
        rw [show 2 * k / 2 = k from by omega]
      · rw [if_neg h2, ih (by omega) n]
        by_cases h3 : n < 2 * k
        · rw [if_pos h3]
          exact (if_pos (by omega)).symm
        · rw [if_neg h3]
          exact (if_neg (by omega)).symm

end MLKem

namespace MLKem

/-- The base-case product over the field. -/
def mulNTTZ (A B : ℕ → Zq) : ℕ → Zq := fun n =>
  if n < 256 then
    if n % 2 = 0 then A n * B n + A (n + 1) * B (n + 1) * (17 : Zq) ^ (2 * br7 (n / 2) + 1)
    else A (n - 1) * B n + A n * B (n - 1)
  else 0

theorem gamma_cast (i : ℕ) :
    (((zetas i * zetas i) % Q * 17 % Q : ℤ) : Zq) = (17 : Zq) ^ (2 * br7 i + 1) := by
  rw [intCast_emod_q]
  push_cast [intCast_emod_q, zetas_cast]
  rw [show 2 * br7 i + 1 = br7 i + br7 i + 1 from by ring, pow_add, pow_add, pow_one]

theorem castFun_mulNTT (a b : Poly) : castFun (mulNTT a b) = mulNTTZ (castFun a) (castFun b) := by
  funext n
  have h : mulNTT a b n =
      (if n < 2 * 128 then
        if n % 2 = 0 then
          (a n * b n + (a (n + 1) * b (n + 1)) % Q * ((zetas (n / 2) * zetas (n / 2)) % Q * 17 % Q)) % Q
        else (a (n - 1) * b n + a n * b (n - 1)) % Q
      else 0) := mulNTT_apply a b 128 le_rfl n
  have hc : castFun (mulNTT a b) n = ((mulNTT a b n : ℤ) : Zq) := rfl
  rw [hc, h, mulNTTZ]
  by_cases hn : n < 256
  · rw [if_pos (by omega : n < 2 * 128), if_pos hn]
    by_cases hp : n % 2 = 0
    · rw [if_pos hp, if_pos hp, intCast_emod_q]
      push_cast [intCast_emod_q]
      simp only [zetas_cast, castFun]
      rw [show ((17 : Zq) ^ br7 (n / 2) * (17 : Zq) ^ br7 (n / 2) * 17)
          = (17 : Zq) ^ (2 * br7 (n / 2) + 1) from by
        rw [show 2 * br7 (n / 2) + 1 = br7 (n / 2) + br7 (n / 2) + 1 from by ring,
          pow_add, pow_add, pow_one]]
    · rw [if_neg hp, if_neg hp, intCast_emod_q]
      push_cast
      rfl
  · rw [if_neg (by omega : ¬ n < 2 * 128), if_neg hn]
    rfl

/-- The negacyclic convolution over the field, as a double sum with the
wrap-around sign. -/
def mulPolyZ (X Y : ℕ → Zq) : ℕ → Zq := fun n =>
  ∑ i ∈ Finset.range 256, ∑ j ∈ Finset.range 256,
    (if i + j = n then X i * Y j else if i + j = n + 256 then -(X i * Y j) else 0)

theorem castFun_update (c : Poly) (p : ℕ) (v : ℤ) (n : ℕ) :
    castFun (Function.update c p v) n = if n = p then ((v : ℤ) : Zq) else castFun c n := by
  rw [castFun, Function.update_apply]
  split_ifs <;> rfl

theorem mulPoly_inner_cast (a b : Poly) (i : ℕ) (st : Poly) :
    ∀ J, ∀ n, n < 256 →
      castFun ((List.range J).foldl (fun c j =>
        if i + j < 256 then Function.update c (i + j) ((c (i + j) + a i * b j) % Q)
        else Function.update c (i + j - 256) ((c (i + j - 256) - a i * b j) % Q)) st) n
      = castFun st n + ∑ j ∈ Finset.range J,
          (if i + j = n then castFun a i * castFun b j
           else if i + j = n + 256 then -(castFun a i * castFun b j) else 0) := by
  intro J
  induction J with
  | zero =>
    intro n hn
    simp
  | succ k ih =>
    intro n hn
    rw [List.range_succ, List.foldl_append, List.foldl_cons, List.foldl_nil,
      Finset.sum_range_succ, ← add_assoc, ← ih n hn]
    by_cases hk : i + k < 256
    · rw [if_pos hk]
      rw [castFun_update]
      by_cases hn2 : n = i + k
      · rw [if_pos hn2, if_pos hn2.symm, intCast_emod_q]
        push_cast
        rw [hn2]
        rfl
      · rw [if_neg hn2, if_neg (fun hh => hn2 hh.symm), if_neg (by omega)]
        rw [add_zero]
    · rw [if_neg hk]
      rw [castFun_update]
      by_cases hn2 : n = i + k - 256
      · rw [if_pos hn2, if_neg (by omega), if_pos (by omega), intCast_emod_q]
        push_cast
        rw [hn2]
        simp only [castFun]
        ring
      · rw [if_neg hn2, if_neg (by omega), if_neg (by omega), add_zero]

theorem castFun_mulPoly (a b : Poly) (n : ℕ) (hn : n < 256) :
    castFun (mulPoly a b) n = mulPolyZ (castFun a) (castFun b) n := by
  have houter : ∀ I, ∀ n, n < 256 →
      castFun ((List.range I).foldl (fun c i =>
        (List.range 256).foldl (fun c j =>
          if i + j < 256 then Function.update c (i + j) ((c (i + j) + a i * b j) % Q)
          else Function.update c (i + j - 256) ((c (i + j - 256) - a i * b j) % Q)) c)
        zeroPoly) n
      = ∑ i ∈ Finset.range I, ∑ j ∈ Finset.range 256,
          (if i + j = n then castFun a i * castFun b j
           else if i + j = n + 256 then -(castFun a i * castFun b j) else 0) := by
    intro I
    induction I with
    | zero =>
      intro n hn
      simp [castFun, zeroPoly]
    | succ k ih =>
      intro n hn
      rw [show List.range (k + 1) = List.range k ++ [k] from List.range_succ k,
        List.foldl_append, List.foldl_cons, List.foldl_nil,
        Finset.sum_range_succ, ← ih n hn]
      exact mulPoly_inner_cast a b k _ 256 n hn
  exact houter 256 n hn

/-- Fold steps that write Euclidean residues keep every coefficient of the
accumulating array in [0, q). -/
theorem foldl_preserve {α : Type} (P : Poly → Prop) (f : Poly → α → Poly) (l : List α)
    (init : Poly) (h0 : P init) (hstep : ∀ c x, P c → P (f c x)) : P (l.foldl f init) := by
  induction l generalizing init with
  | nil => exact h0
  | cons y ys ih => exact ih (f init y) (hstep init y h0)

theorem inRange_update (c : Poly) (p : ℕ) (v : ℤ) (hc : ∀ n, 0 ≤ c n ∧ c n < Q)
    (hv : 0 ≤ v ∧ v < Q) : ∀ n, 0 ≤ Function.update c p v n ∧ Function.update c p v n < Q := by
  intro n
  rw [Function.update_apply]
  split_ifs
  · exact hv
  · exact hc n

theorem zeroPoly_inRange : ∀ n, 0 ≤ zeroPoly n ∧ zeroPoly n < Q := by
  intro n
  rw [zeroPoly]
  norm_num

theorem emod_inRange (x : ℤ) : 0 ≤ x % Q ∧ x % Q < Q :=
  ⟨Int.emod_nonneg _ (by norm_num), Int.emod_lt_of_pos _ (by norm_num)⟩

theorem mulPoly_range (a b : Poly) : ∀ n, 0 ≤ mulPoly a b n ∧ mulPoly a b n < Q := by
  rw [mulPoly]
  apply foldl_preserve (fun c => ∀ n, 0 ≤ c n ∧ c n < Q)
  · exact zeroPoly_inRange
  · intro c i hc
    apply foldl_preserve (fun c => ∀ n, 0 ≤ c n ∧ c n < Q) _ _ _ hc
    intro c j hcj
    split_ifs <;> exact inRange_update _ _ _ hcj (emod_inRange _)

theorem mulNTT_range (a b : Poly) : ∀ n, 0 ≤ mulNTT a b n ∧ mulNTT a b n < Q := by
  rw [mulNTT]
  apply foldl_preserve (fun c => ∀ n, 0 ≤ c n ∧ c n < Q)
  · exact zeroPoly_inRange
  · intro c i hc
    exact inRange_update _ _ _ (inRange_update _ _ _ hc (emod_inRange _)) (emod_inRange _)

end MLKem

namespace MLKem

/-- The forward layer chain as one function. -/
def fwdZ (x : ℕ → Zq) : ℕ → Zq :=
  ctZ 2 64 (ctZ 4 32 (ctZ 8 16 (ctZ 16 8 (ctZ 32 4 (ctZ 64 2 (ctZ 128 1 x))))))

theorem fwdZ_closed (x : ℕ → Zq) (b t : ℕ) (hb : b < 128) (ht : t < 2) :
    fwdZ x (2 * b + t) = ∑ u ∈ Finset.range 128, x (t + 2 * u) * ((17 : Zq) ^ EE 7 b) ^ u :=
  fwd_closed x b t hb ht

theorem sum_hit (g : ℕ → Zq) (N u0 : ℕ) (hu : u0 < N) (cond : ℕ → Prop)
    [DecidablePred cond] (hc : ∀ u, u < N → (cond u ↔ u = u0)) :
    ∑ u ∈ Finset.range N, (if cond u then g u else 0) = g u0 := by
  rw [Finset.sum_eq_single u0]
  · rw [if_pos ((hc u0 hu).mpr rfl)]
  · intro u hu2 hne
    rw [if_neg (fun hcu => hne ((hc u (Finset.mem_range.mp hu2)).mp hcu))]
  · intro habs
    exact absurd (Finset.mem_range.mpr hu) habs

theorem sum_miss (g : ℕ → Zq) (N : ℕ) (cond : ℕ → Prop) [DecidablePred cond]
    (hc : ∀ u, u < N → ¬ cond u) :
    ∑ u ∈ Finset.range N, (if cond u then g u else 0) = 0 := by
  apply Finset.sum_eq_zero
  intro u hu
  rw [if_neg (hc u (Finset.mem_range.mp hu))]

theorem ite_chain_split (P R : Prop) [Decidable P] [Decidable R] (c w : Zq) (h : ¬(P ∧ R)) :
    (if P then c else if R then -c else 0) * w
      = (if P then c * w else 0) + (if R then -(c * w) else 0) := by
  by_cases hp : P
  · rw [if_pos hp, if_pos hp, if_neg (fun hr => h ⟨hp, hr⟩), add_zero]
  · rw [if_neg hp, if_neg hp, zero_add]
    by_cases hr : R
    · rw [if_pos hr, if_pos hr]
      ring
    · rw [if_neg hr, if_neg hr, zero_mul]

/-- Collapsing the rejection-style double indicator over the 128 powers of
gamma: at most one index contributes, with the wrap-around sign. -/
theorem uSum_eval (X Y : ℕ → Zq) (γ : Zq) (i j t : ℕ) (hi : i < 256) (hj : j < 256)
    (ht : t < 2) :
    (∑ u ∈ Finset.range 128,
      (if i + j = t + 2 * u then X i * Y j else if i + j = t + 2 * u + 256 then -(X i * Y j)
        else 0) * γ ^ u)
    = if (i + j) % 2 = t then
        (if i + j < t + 256 then X i * Y j * γ ^ ((i + j - t) / 2)
         else -(X i * Y j * γ ^ ((i + j - t - 256) / 2)))
      else 0 := by
  have hsplit : ∀ u ∈ Finset.range 128,
      (if i + j = t + 2 * u then X i * Y j else if i + j = t + 2 * u + 256 then -(X i * Y j)
        else 0) * γ ^ u
      = (if i + j = t + 2 * u then X i * Y j * γ ^ u else 0)
        + (if i + j = t + 2 * u + 256 then -(X i * Y j * γ ^ u) else 0) := by
    intro u hu
    rw [ite_chain_split _ _ _ _ (by omega)]
  rw [Finset.sum_congr rfl hsplit, Finset.sum_add_distrib]
  by_cases hpar : (i + j) % 2 = t
  · rw [if_pos hpar]
    by_cases hlt : i + j < t + 256
    · rw [if_pos hlt]
      rw [sum_hit (fun u => X i * Y j * γ ^ u) 128 ((i + j - t) / 2) (by omega) _
        (fun u hu => by omega)]
      rw [sum_miss _ 128 _ (fun u hu => by omega), add_zero]
    · rw [if_neg hlt]
      rw [sum_miss _ 128 _ (fun u hu => by omega)]
      rw [sum_hit (fun u => -(X i * Y j * γ ^ u)) 128 ((i + j - t - 256) / 2) (by omega) _
        (fun u hu => by omega), zero_add]
  · rw [if_neg hpar]
    rw [sum_miss _ 128 _ (fun u hu => by omega), sum_miss _ 128 _ (fun u hu => by omega),
      add_zero]

theorem gpow_wrap (γ : Zq) (hγ : γ ^ 128 = -1) (w : ℕ) (hw : w ≤ 255) :
    (if w < 128 then γ ^ w else -(γ ^ (w - 128))) = γ ^ w := by
  split_ifs with h
  · rfl
  · conv_rhs => rw [show w = 128 + (w - 128) from by omega]
    rw [pow_add, hγ]
    ring

theorem gamma_pow_128 (b : ℕ) : ((17 : Zq) ^ (2 * br7 b + 1)) ^ 128 = -1 := by
  rw [← pow_mul, show (2 * br7 b + 1) * 128 = 256 * br7 b + 128 from by ring,
    pow_add, pow_mul, zq_pow_256, one_pow, one_mul]
  exact zq_zeta_128


theorem parity_branch (c g : Zq) (hg : g ^ 128 = -1) (i j t : ℕ) (hi : i < 256)
    (hj : j < 256) (ht : t < 2) (hp : (i + j) % 2 = t) :
    (if i + j < t + 256 then c * g ^ ((i + j - t) / 2)
      else -(c * g ^ ((i + j - t - 256) / 2)))
    = c * g ^ ((i + j - t) / 2) := by
  by_cases h : i + j < t + 256
  · rw [if_pos h]
  · rw [if_neg h]
    have h1 : (i + j - t - 256) / 2 = (i + j - t) / 2 - 128 := by omega
    have h2 : ¬ ((i + j - t) / 2 < 128) := by omega
    have h3 : (i + j - t) / 2 ≤ 255 := by omega
    have h4 := gpow_wrap g hg ((i + j - t) / 2) h3
    rw [if_neg h2] at h4
    calc -(c * g ^ ((i + j - t - 256) / 2))
        = c * -(g ^ ((i + j - t) / 2 - 128)) := by rw [h1]; ring
      _ = c * g ^ ((i + j - t) / 2) := by rw [h4]

/-- The inverse image of the convolution under the forward map, in closed
form: a double sum filtered by parity. -/
theorem fwdZ_mulPolyZ (X Y : ℕ → Zq) (b t : ℕ) (hb : b < 128) (ht : t < 2) :
    fwdZ (mulPolyZ X Y) (2 * b + t)
      = ∑ i ∈ Finset.range 256, ∑ j ∈ Finset.range 256,
          (if (i + j) % 2 = t then
            X i * Y j * ((17 : Zq) ^ (2 * br7 b + 1)) ^ ((i + j - t) / 2) else 0) := by
  rw [fwdZ_closed _ b t hb ht, EE_final b hb]
  simp only [mulPolyZ, Finset.sum_mul]
  rw [Finset.sum_comm]
  refine Finset.sum_congr rfl (fun i hi => ?_)
  rw [Finset.sum_comm]
  refine Finset.sum_congr rfl (fun j hj => ?_)
  rw [uSum_eval X Y _ i j t (Finset.mem_range.mp hi) (Finset.mem_range.mp hj) ht]
  by_cases hp : (i + j) % 2 = t
  · rw [if_pos hp, if_pos hp,
      parity_branch (X i * Y j) _ (gamma_pow_128 b) i j t (Finset.mem_range.mp hi)
        (Finset.mem_range.mp hj) ht hp]
  · rw [if_neg hp, if_neg hp]

theorem double_sum_even_odd {M : Type} [AddCommMonoid M] (G : ℕ → ℕ → M) (m : ℕ) :
    ∑ i ∈ Finset.range (2 * m), ∑ j ∈ Finset.range (2 * m), G i j
    = ((∑ u ∈ Finset.range m, ∑ v ∈ Finset.range m, G (2 * u) (2 * v))
        + ∑ u ∈ Finset.range m, ∑ v ∈ Finset.range m, G (2 * u) (2 * v + 1))
      + ((∑ u ∈ Finset.range m, ∑ v ∈ Finset.range m, G (2 * u + 1) (2 * v))
        + ∑ u ∈ Finset.range m, ∑ v ∈ Finset.range m, G (2 * u + 1) (2 * v + 1)) := by
  rw [sum_range_even_odd (fun i => ∑ j ∈ Finset.range (2 * m), G i j) m]
  congr 1
  · rw [← Finset.sum_add_distrib]
    exact Finset.sum_congr rfl (fun u _ => sum_range_even_odd (fun j => G (2 * u) j) m)
  · rw [← Finset.sum_add_distrib]
    exact Finset.sum_congr rfl (fun u _ => sum_range_even_odd (fun j => G (2 * u + 1) j) m)

/-- The forward map turns the negacyclic convolution into the base-case
product, coefficient by coefficient. -/
theorem fwdZ_mul (X Y : ℕ → Zq) (n : ℕ) (hn : n < 256) :
    mulNTTZ (fwdZ X) (fwdZ Y) n = fwdZ (mulPolyZ X Y) n := by
  obtain ⟨b, t, hb, ht, rfl⟩ : ∃ b t, b < 128 ∧ t < 2 ∧ n = 2 * b + t :=
    ⟨n / 2, n % 2, by omega, by omega, by omega⟩
  rw [fwdZ_mulPolyZ X Y b t hb ht]
  have eX0 := fwdZ_closed X b 0 hb (by omega)
  have eX1 := fwdZ_closed X b 1 hb (by omega)
  have eY0 := fwdZ_closed Y b 0 hb (by omega)
  have eY1 := fwdZ_closed Y b 1 hb (by omega)
  rw [EE_final b hb] at eX0 eX1 eY0 eY1
  simp only [Nat.add_zero, Nat.zero_add] at eX0 eY0
  interval_cases t
  · simp only [Nat.add_zero, Nat.sub_zero]
    simp only [mulNTTZ]
    rw [if_pos (show 2 * b < 256 from by omega), if_pos (show 2 * b % 2 = 0 from by omega),
      show 2 * b / 2 = b from by omega]
    rw [eX0, eY0, eX1, eY1]
    generalize (17 : Zq) ^ (2 * br7 b + 1) = g
    rw [Finset.sum_mul_sum, Finset.sum_mul_sum]
    simp only [Finset.sum_mul]
    rw [show (256 : ℕ) = 2 * 128 from by norm_num]
    rw [double_sum_even_odd
      (fun i j => if (i + j) % 2 = 0 then X i * Y j * g ^ ((i + j) / 2) else 0) 128]
    have h01 : (∑ u ∈ Finset.range 128, ∑ v ∈ Finset.range 128,
        (if (2 * u + (2 * v + 1)) % 2 = 0 then
          X (2 * u) * Y (2 * v + 1) * g ^ ((2 * u + (2 * v + 1)) / 2) else 0)) = 0 :=
      Finset.sum_eq_zero fun u _ => Finset.sum_eq_zero fun v _ => if_neg (by omega)
    have h10 : (∑ u ∈ Finset.range 128, ∑ v ∈ Finset.range 128,
        (if (2 * u + 1 + 2 * v) % 2 = 0 then
          X (2 * u + 1) * Y (2 * v) * g ^ ((2 * u + 1 + 2 * v) / 2) else 0)) = 0 :=
      Finset.sum_eq_zero fun u _ => Finset.sum_eq_zero fun v _ => if_neg (by omega)
    have e00 : (∑ u ∈ Finset.range 128, ∑ v ∈ Finset.range 128,
        (if (2 * u + 2 * v) % 2 = 0 then
          X (2 * u) * Y (2 * v) * g ^ ((2 * u + 2 * v) / 2) else 0))
        = ∑ u ∈ Finset.range 128, ∑ v ∈ Finset.range 128,
            X (2 * u) * g ^ u * (Y (2 * v) * g ^ v) :=
      Finset.sum_congr rfl fun u _ => Finset.sum_congr rfl fun v _ => by
        rw [if_pos (show (2 * u + 2 * v) % 2 = 0 from by omega),
          show (2 * u + 2 * v) / 2 = u + v from by omega]
        ring
    have e11 : (∑ u ∈ Finset.range 128, ∑ v ∈ Finset.range 128,
        (if (2 * u + 1 + (2 * v + 1)) % 2 = 0 then
          X (2 * u + 1) * Y (2 * v + 1) * g ^ ((2 * u + 1 + (2 * v + 1)) / 2) else 0))
        = ∑ u ∈ Finset.range 128, ∑ v ∈ Finset.range 128,
            X (1 + 2 * u) * g ^ u * (Y (1 + 2 * v) * g ^ v) * g :=
      Finset.sum_congr rfl fun u _ => Finset.sum_congr rfl fun v _ => by
        rw [if_pos (show (2 * u + 1 + (2 * v + 1)) % 2 = 0 from by omega),
          show (2 * u + 1 + (2 * v + 1)) / 2 = u + v + 1 from by omega,
          show (2 * u + 1 : ℕ) = 1 + 2 * u from by omega,
          show (2 * v + 1 : ℕ) = 1 + 2 * v from by omega]
        ring
    rw [h01, h10, add_zero, zero_add, e00, e11]
  · simp only [mulNTTZ]
    rw [if_pos (show 2 * b + 1 < 256 from by omega),
      if_neg (show ¬ (2 * b + 1) % 2 = 0 from by omega),
      show 2 * b + 1 - 1 = 2 * b from by omega]
    rw [eX0, eY1, eX1, eY0]
    generalize (17 : Zq) ^ (2 * br7 b + 1) = g
    rw [Finset.sum_mul_sum, Finset.sum_mul_sum]
    rw [show (256 : ℕ) = 2 * 128 from by norm_num]
    rw [double_sum_even_odd
      (fun i j => if (i + j) % 2 = 1 then X i * Y j * g ^ ((i + j - 1) / 2) else 0) 128]
    have h00 : (∑ u ∈ Finset.range 128, ∑ v ∈ Finset.range 128,
        (if (2 * u + 2 * v) % 2 = 1 then
          X (2 * u) * Y (2 * v) * g ^ ((2 * u + 2 * v - 1) / 2) else 0)) = 0 :=
      Finset.sum_eq_zero fun u _ => Finset.sum_eq_zero fun v _ => if_neg (by omega)
    have h11 : (∑ u ∈ Finset.range 128, ∑ v ∈ Finset.range 128,
        (if (2 * u + 1 + (2 * v + 1)) % 2 = 1 then
          X (2 * u + 1) * Y (2 * v + 1) * g ^ ((2 * u + 1 + (2 * v + 1) - 1) / 2) else 0)) = 0 :=
      Finset.sum_eq_zero fun u _ => Finset.sum_eq_zero fun v _ => if_neg (by omega)
    have e01 : (∑ u ∈ Finset.range 128, ∑ v ∈ Finset.range 128,
        (if (2 * u + (2 * v + 1)) % 2 = 1 then
          X (2 * u) * Y (2 * v + 1) * g ^ ((2 * u + (2 * v + 1) - 1) / 2) else 0))
        = ∑ u ∈ Finset.range 128, ∑ v ∈ Finset.range 128,
            X (2 * u) * g ^ u * (Y (1 + 2 * v) * g ^ v) :=
      Finset.sum_congr rfl fun u _ => Finset.sum_congr rfl fun v _ => by
        rw [if_pos (show (2 * u + (2 * v + 1)) % 2 = 1 from by omega),
          show (2 * u + (2 * v + 1) - 1) / 2 = u + v from by omega,
          show (2 * v + 1 : ℕ) = 1 + 2 * v from by omega]
        ring
    have e10 : (∑ u ∈ Finset.range 128, ∑ v ∈ Finset.range 128,
        (if (2 * u + 1 + 2 * v) % 2 = 1 then
          X (2 * u + 1) * Y (2 * v) * g ^ ((2 * u + 1 + 2 * v - 1) / 2) else 0))
        = ∑ u ∈ Finset.range 128, ∑ v ∈ Finset.range 128,
            X (1 + 2 * u) * g ^ u * (Y (2 * v) * g ^ v) :=
      Finset.sum_congr rfl fun u _ => Finset.sum_congr rfl fun v _ => by
        rw [if_pos (show (2 * u + 1 + 2 * v) % 2 = 1 from by omega),
          show (2 * u + 1 + 2 * v - 1) / 2 = u + v from by omega,
          show (2 * u + 1 : ℕ) = 1 + 2 * u from by omega]
        ring
    rw [h00, h11, zero_add, add_zero, e01, e10]

/-- Agreement below index 256 propagates through the seven inverse layers. -/
theorem gsChain_congr (y₁ y₂ : ℕ → Zq) (h : ∀ k, k < 256 → y₁ k = y₂ k) (n : ℕ)
    (hn : n < 256) :
    gsZ 128 1 (gsZ 64 3 (gsZ 32 7 (gsZ 16 15 (gsZ 8 31 (gsZ 4 63 (gsZ 2 127 (y₁))))))) n
    = gsZ 128 1 (gsZ 64 3 (gsZ 32 7 (gsZ 16 15 (gsZ 8 31 (gsZ 4 63 (gsZ 2 127 (y₂))))))) n := by
  have h2 : ∀ k, k < 256 → gsZ 2 127 y₁ k = gsZ 2 127 y₂ k :=
    fun k hk => gsZ_congr 2 64 127 (by norm_num) (by norm_num) y₁ y₂ h k hk
  have h4 : ∀ k, k < 256 → gsZ 4 63 (gsZ 2 127 (y₁)) k = gsZ 4 63 (gsZ 2 127 (y₂)) k :=
    fun k hk => gsZ_congr 4 32 63 (by norm_num) (by norm_num) _ _ h2 k hk
  have h8 : ∀ k, k < 256 →
      gsZ 8 31 (gsZ 4 63 (gsZ 2 127 (y₁))) k = gsZ 8 31 (gsZ 4 63 (gsZ 2 127 (y₂))) k :=
    fun k hk => gsZ_congr 8 16 31 (by norm_num) (by norm_num) _ _ h4 k hk
  have h16 : ∀ k, k < 256 →
      gsZ 16 15 (gsZ 8 31 (gsZ 4 63 (gsZ 2 127 (y₁)))) k
        = gsZ 16 15 (gsZ 8 31 (gsZ 4 63 (gsZ 2 127 (y₂)))) k :=
    fun k hk => gsZ_congr 16 8 15 (by norm_num) (by norm_num) _ _ h8 k hk
  have h32 : ∀ k, k < 256 →
      gsZ 32 7 (gsZ 16 15 (gsZ 8 31 (gsZ 4 63 (gsZ 2 127 (y₁))))) k
        = gsZ 32 7 (gsZ 16 15 (gsZ 8 31 (gsZ 4 63 (gsZ 2 127 (y₂))))) k :=
    fun k hk => gsZ_congr 32 4 7 (by norm_num) (by norm_num) _ _ h16 k hk
  have h64 : ∀ k, k < 256 →
      gsZ 64 3 (gsZ 32 7 (gsZ 16 15 (gsZ 8 31 (gsZ 4 63 (gsZ 2 127 (y₁)))))) k
        = gsZ 64 3 (gsZ 32 7 (gsZ 16 15 (gsZ 8 31 (gsZ 4 63 (gsZ 2 127 (y₂)))))) k :=
    fun k hk => gsZ_congr 64 2 3 (by norm_num) (by norm_num) _ _ h32 k hk
  exact gsZ_congr 128 1 1 (by norm_num) (by norm_num) _ _ h64 n hn

/-- C5: the NTT multiplication identity: for coefficient arrays a and b with
256 entries in [0, q) whose degrees satisfy deg(a b) < 256, computing the
base-case product of the two forward transforms and then the inverse
transform agrees with the negacyclic schoolbook product on all 256
positions. -/
theorem ntt_mul_identity (a b : Poly)
    (ha : ∀ i, i < 256 → 0 ≤ a i ∧ a i < Q)
    (hb : ∀ i, i < 256 → 0 ≤ b i ∧ b i < Q)
    (da db : ℕ) (hdab : da + db < 256)
    (hda : ∀ i, i < 256 → da < i → a i = 0)
    (hdb : ∀ i, i < 256 → db < i → b i = 0) :
    ∀ i, i < 256 → from_ntt (mulNTT (to_ntt a) (to_ntt b)) i = mulPoly a b i := by
  intro i hi
  have h1 := from_ntt_range (mulNTT (to_ntt a) (to_ntt b)) i
  have h2 := mulPoly_range a b i
  apply int_eq_of_zq _ _ h1.1 h1.2 h2.1 h2.2
  have hc : castFun (from_ntt (mulNTT (to_ntt a) (to_ntt b))) i
      = castFun (mulPoly a b) i := by
    rw [castFun_from_ntt, castFun_mulNTT (to_ntt a) (to_ntt b), castFun_to_ntt a,
      castFun_to_ntt b, castFun_mulPoly a b i hi]
    have hfwd : ∀ k, k < 256 →
        mulNTTZ
          (ctZ 2 64 (ctZ 4 32 (ctZ 8 16 (ctZ 16 8 (ctZ 32 4 (ctZ 64 2 (ctZ 128 1 (castFun a))))))))
          (ctZ 2 64 (ctZ 4 32 (ctZ 8 16 (ctZ 16 8 (ctZ 32 4 (ctZ 64 2 (ctZ 128 1 (castFun b)))))))) k
        = ctZ 2 64 (ctZ 4 32 (ctZ 8 16 (ctZ 16 8 (ctZ 32 4 (ctZ 64 2 (ctZ 128 1
            (mulPolyZ (castFun a) (castFun b)))))))) k :=
      fun k hk => fwdZ_mul (castFun a) (castFun b) k hk
    rw [gsChain_congr _ _ hfwd i hi, collapse7 (mulPolyZ (castFun a) (castFun b)) i,
      if_pos hi,
      show (3303 : Zq) * (128 * mulPolyZ (castFun a) (castFun b) i)
        = (3303 * 128) * mulPolyZ (castFun a) (castFun b) i from by ring,
      zq_scale_unit, one_mul]
  exact hc

theorem ntt_mul_identity_witness :
    from_ntt (mulNTT (to_ntt (fun k => 0)) (to_ntt (fun k => 0))) 0
      = mulPoly (fun k => 0) (fun k => 0) 0 :=
  ntt_mul_identity (fun k => 0) (fun k => 0)
    (fun i _ => ⟨le_refl 0, show (0 : ℤ) < 3329 from by decide⟩)
    (fun i _ => ⟨le_refl 0, show (0 : ℤ) < 3329 from by decide⟩)
    0 0 (by decide) (fun i _ _ => rfl) (fun i _ _ => rfl) 0 (by decide)

theorem ntt_roundtrip_witness :
    from_ntt (to_ntt (fun k => 0)) 0 = 0 :=
  ntt_roundtrip (fun k => 0)
    (fun i _ => ⟨le_refl 0, show (0 : ℤ) < 3329 from by decide⟩) 0 (by decide)


/-- Embedding of sample_poly_cbd (Algorithm 8) from polynomial.rs on its
non-panicking domain (eta in {2, 3} and a byte string of length 64 eta,
stated as hypotheses where used): coefficient i is (x - y) mod q with x
and y sums of eta bits of the input bit stream. -/
def sample_poly_cbd (b : List ℕ) (eta : ℕ) : Poly := fun i =>
  if i < 256 then
    (((List.range eta).foldl
        (fun x j => x + (((bytes_to_bits b).getD (2 * i * eta + j) false).toNat : ℤ)) 0)
      - ((List.range eta).foldl
        (fun y j => y + (((bytes_to_bits b).getD (2 * i * eta + eta + j) false).toNat : ℤ)) 0)) % Q
  else 0

/-- The first conditional write of the sample_ntt loop body from
polynomial.rs: d1 is stored when it is a valid residue; the state is the
coefficient array with the fill index j. -/
def sampleNTT1 (d1 : ℤ) (st : Poly × ℕ) : Poly × ℕ :=
  if d1 < Q then (Function.update st.1 st.2 d1, st.2 + 1) else st

/-- The second conditional write of the sample_ntt loop body: d2 is stored
when it is a valid residue and a slot is still free. -/
def sampleNTT2 (d2 : ℤ) (st : Poly × ℕ) : Poly × ℕ :=
  if d2 < Q ∧ st.2 < 256 then (Function.update st.1 st.2 d2, st.2 + 1) else st

/-- The rejection loop of sample_ntt (Algorithm 7) from polynomial.rs with
explicit fuel; the SHAKE-128 reader is abstracted as the byte stream, three
bytes being read per iteration, and d1 = c0 + N (c1 mod 16),
d2 = c1 div 16 + 16 c2 with N = 256. -/
def sampleNTTGo (stream : ℕ → ℕ) : ℕ → Poly × ℕ → ℕ → Poly
  | 0, st, _ => st.1
  | fuel + 1, st, pos =>
    if st.2 < 256 then
      sampleNTTGo stream fuel
        (sampleNTT2 ((stream (pos + 1) : ℤ) / 16 + 16 * (stream (pos + 2) : ℤ))
          (sampleNTT1 ((stream pos : ℤ) + 256 * ((stream (pos + 1) : ℤ) % 16)) st))
        (pos + 3)
    else st.1

/-- Embedding of sample_ntt from polynomial.rs: the array starts as zeroes
and the loop fills it from the stream. -/
def sample_ntt (stream : ℕ → ℕ) (fuel : ℕ) : Poly :=
  sampleNTTGo stream fuel (zeroPoly, 0) 0

theorem sampleNTT1_range (d : ℤ) (hd : 0 ≤ d) (st : Poly × ℕ)
    (hst : ∀ n, 0 ≤ st.1 n ∧ st.1 n < Q) :
    ∀ n, 0 ≤ (sampleNTT1 d st).1 n ∧ (sampleNTT1 d st).1 n < Q := by
  rw [sampleNTT1]
  split_ifs with h
  · exact inRange_update _ _ _ hst ⟨hd, h⟩
  · exact hst

theorem sampleNTT2_range (d : ℤ) (hd : 0 ≤ d) (st : Poly × ℕ)
    (hst : ∀ n, 0 ≤ st.1 n ∧ st.1 n < Q) :
    ∀ n, 0 ≤ (sampleNTT2 d st).1 n ∧ (sampleNTT2 d st).1 n < Q := by
  rw [sampleNTT2]
  split_ifs with h
  · exact inRange_update _ _ _ hst ⟨hd, h.1⟩
  · exact hst

theorem sampleNTTGo_range (stream : ℕ → ℕ) : ∀ fuel st pos,
    (∀ n, 0 ≤ st.1 n ∧ st.1 n < Q) →
    ∀ n, 0 ≤ sampleNTTGo stream fuel st pos n ∧ sampleNTTGo stream fuel st pos n < Q := by
  intro fuel
  induction fuel with
  | zero => intro st pos hst n; exact hst n
  | succ f ih =>
    intro st pos hst n
    rw [sampleNTTGo]
    split_ifs with h
    · refine ih _ _ (sampleNTT2_range _ ?_ _ (sampleNTT1_range _ ?_ _ hst)) n
      · exact add_nonneg (Int.ediv_nonneg (Int.natCast_nonneg _) (by norm_num))
          (mul_nonneg (by norm_num) (Int.natCast_nonneg _))
      · exact add_nonneg (Int.natCast_nonneg _)
          (mul_nonneg (by norm_num) (Int.emod_nonneg _ (by norm_num)))
    · exact hst n

theorem sample_ntt_range (stream : ℕ → ℕ) (fuel : ℕ) :
    ∀ n, 0 ≤ sample_ntt stream fuel n ∧ sample_ntt stream fuel n < Q :=
  fun n => sampleNTTGo_range stream fuel (zeroPoly, 0) 0 zeroPoly_inRange n

theorem sample_poly_cbd_range (b : List ℕ) (eta : ℕ) :
    ∀ n, 0 ≤ sample_poly_cbd b eta n ∧ sample_poly_cbd b eta n < Q := by
  intro n
  rw [sample_poly_cbd]
  split_ifs
  · exact emod_inRange _
  · exact ⟨le_refl 0, by norm_num⟩

/-- C6: the coefficient-range invariant: with inputs whose 256 coefficients
lie in [0, q) (and, for the samplers, inputs of the shape the source
accepts), addition, subtraction, schoolbook multiplication, base-case NTT
multiplication, the forward and inverse NTT, sample_poly_cbd and sample_ntt
all produce coefficients in [0, q) on every one of the 256 positions; the
fixed length N = 256 is carried by the coefficient-array representation
itself. -/
theorem range_invariant (a b : Poly)
    (ha : ∀ i, i < 256 → 0 ≤ a i ∧ a i < Q) (hb : ∀ i, i < 256 → 0 ≤ b i ∧ b i < Q)
    (bytes : List ℕ) (eta : ℕ) (heta : eta = 2 ∨ eta = 3)
    (hlen : bytes.length = 64 * eta) (stream : ℕ → ℕ) (fuel : ℕ) :
    (∀ n, n < 256 → 0 ≤ addPoly a b n ∧ addPoly a b n < Q)
    ∧ (∀ n, n < 256 → 0 ≤ subPoly a b n ∧ subPoly a b n < Q)
    ∧ (∀ n, n < 256 → 0 ≤ mulPoly a b n ∧ mulPoly a b n < Q)
    ∧ (∀ n, n < 256 → 0 ≤ mulNTT a b n ∧ mulNTT a b n < Q)
    ∧ (∀ n, n < 256 → 0 ≤ to_ntt a n ∧ to_ntt a n < Q)
    ∧ (∀ n, n < 256 → 0 ≤ from_ntt a n ∧ from_ntt a n < Q)
    ∧ (∀ n, n < 256 → 0 ≤ sample_poly_cbd bytes eta n ∧ sample_poly_cbd bytes eta n < Q)
    ∧ (∀ n, n < 256 → 0 ≤ sample_ntt stream fuel n ∧ sample_ntt stream fuel n < Q) :=
  ⟨fun n _ => emod_inRange _, fun n _ => emod_inRange _,
    fun n _ => mulPoly_range a b n, fun n _ => mulNTT_range a b n,
    fun n hn => to_ntt_range a n hn, fun n _ => from_ntt_range a n,
    fun n _ => sample_poly_cbd_range bytes eta n,
    fun n _ => sample_ntt_range stream fuel n⟩

theorem range_invariant_witness :
    0 ≤ addPoly (fun k => 0) (fun k => 0) 0 ∧ addPoly (fun k => 0) (fun k => 0) 0 < Q :=
  (range_invariant (fun k => 0) (fun k => 0)
    (fun i _ => ⟨le_refl 0, show (0 : ℤ) < 3329 from by decide⟩)
    (fun i _ => ⟨le_refl 0, show (0 : ℤ) < 3329 from by decide⟩)
    (List.replicate 128 0) 2 (Or.inl rfl) rfl (fun k => 0) 0).1 0 (by decide)

end MLKem

namespace MLKem

/-- Embedding of decaps_internal (Algorithm 18) from Kyber/kem_scheme.rs.
The SHA3 hashes G and J (external crate) and the K-PKE encrypt and decrypt
routines enter as function parameters; the slices of dk mirror the source
ranges, and the try_into().expect conversion of m_prime is modelled by the
length-32 check, whose failure is the panic, returned as none. -/
def decaps_internal (k : ℕ) (gf : List ℕ → List ℕ × List ℕ) (jf : List ℕ → List ℕ)
    (enc : List ℕ → List ℕ → List ℕ → List ℕ) (dec : List ℕ → List ℕ → List ℕ)
    (dk c : List ℕ) : Option (List ℕ) :=
  let dk_pke := dk.take (384 * k)
  let ek_pke := (dk.drop (384 * k)).take (768 * k + 32 - 384 * k)
  let hh := (dk.drop (768 * k + 32)).take (768 * k + 64 - (768 * k + 32))
  let z := dk.drop (768 * k + 64)
  let m' := dec dk_pke c
  let K' := (gf (m' ++ hh)).1
  let r' := (gf (m' ++ hh)).2
  let kbar := jf (z ++ c)
  if m'.length = 32 then
    some (if c ≠ enc ek_pke m' r' then kbar else K')
  else none

/-- C2: implicit rejection: on a decapsulation key laid out as
dk_pke ++ ek ++ H(ek) ++ z with the lengths KeyGen produces and any
ciphertext of the correct length, decaps_internal returns the shared key
K-prime of G(m-prime ++ H(ek)) exactly when the re-encryption of m-prime
equals c, and J(z ++ c) otherwise; with the decryption output of length 32
(as K-PKE decrypt always produces) it never signals a failure. -/
theorem decaps_implicit_rejection
    (k : ℕ) (gf : List ℕ → List ℕ × List ℕ) (hf jf : List ℕ → List ℕ)
    (enc : List ℕ → List ℕ → List ℕ → List ℕ) (dec : List ℕ → List ℕ → List ℕ)
    (hdec : ∀ dkp c, (dec dkp c).length = 32)
    (dkpke ek z c : List ℕ) (du dv : ℕ)
    (hdkp : dkpke.length = 384 * k) (hek : ek.length = 384 * k + 32)
    (hh : (hf ek).length = 32) (hz : z.length = 32)
    (hc : c.length = 32 * (du * k + dv)) :
    decaps_internal k gf jf enc dec (dkpke ++ (ek ++ (hf ek ++ z))) c
      = some (if c = enc ek (dec dkpke c) (gf (dec dkpke c ++ hf ek)).2
              then (gf (dec dkpke c ++ hf ek)).1
              else jf (z ++ c)) := by
  have e1 : (dkpke ++ (ek ++ (hf ek ++ z))).take (384 * k) = dkpke := List.take_left' hdkp
  have e2 : (dkpke ++ (ek ++ (hf ek ++ z))).drop (384 * k) = ek ++ (hf ek ++ z) :=
    List.drop_left' hdkp
  have e3 : (ek ++ (hf ek ++ z)).take (768 * k + 32 - 384 * k) = ek := by
    rw [show 768 * k + 32 - 384 * k = 384 * k + 32 from by omega]
    exact List.take_left' hek
  have e4 : (dkpke ++ (ek ++ (hf ek ++ z))).drop (768 * k + 32) = hf ek ++ z := by
    rw [show 768 * k + 32 = 384 * k + (384 * k + 32) from by omega, ← List.drop_drop, e2]
    exact List.drop_left' hek
  have e5 : (dkpke ++ (ek ++ (hf ek ++ z))).drop (768 * k + 64) = z := by
    rw [show 768 * k + 64 = 768 * k + 32 + 32 from by omega, ← List.drop_drop, e4]
    exact List.drop_left' hh
  have e6 : (hf ek ++ z).take (768 * k + 64 - (768 * k + 32)) = hf ek := by
    rw [show 768 * k + 64 - (768 * k + 32) = 32 from by omega]
    exact List.take_left' hh
  simp only [decaps_internal]
  rw [e1, e2, e3, e4, e5, e6, if_pos (hdec dkpke c)]
  by_cases hcc : c = enc ek (dec dkpke c) (gf (dec dkpke c ++ hf ek)).2
  · rw [if_neg (not_not_intro hcc), if_pos hcc]
  · rw [if_pos hcc, if_neg hcc]

theorem decaps_implicit_rejection_witness :
    decaps_internal 1 (fun x => ([], [])) (fun x => [])
      (fun e m r => []) (fun d c => List.replicate 32 0)
      (List.replicate 384 0 ++ (List.replicate 416 0
        ++ ((fun x : List ℕ => List.replicate 32 0) (List.replicate 416 0)
        ++ List.replicate 32 0))) []
    = some (if ([] : List ℕ) = (fun e m r : List ℕ => ([] : List ℕ)) (List.replicate 416 0)
              ((fun d c : List ℕ => List.replicate 32 (0 : ℕ)) (List.replicate 384 0) [])
              ((fun x : List ℕ => (([] : List ℕ), ([] : List ℕ)))
                ((fun d c : List ℕ => List.replicate 32 (0 : ℕ)) (List.replicate 384 0) []
                  ++ (fun x : List ℕ => List.replicate 32 (0 : ℕ)) (List.replicate 416 0))).2
            then ((fun x : List ℕ => (([] : List ℕ), ([] : List ℕ)))
              ((fun d c : List ℕ => List.replicate 32 (0 : ℕ)) (List.replicate 384 0) []
                ++ (fun x : List ℕ => List.replicate 32 (0 : ℕ)) (List.replicate 416 0))).1
            else (fun x : List ℕ => ([] : List ℕ)) (List.replicate 32 0 ++ [])) :=
  decaps_implicit_rejection 1 (fun x => ([], [])) (fun x => List.replicate 32 0)
    (fun x => []) (fun e m r => []) (fun d c => List.replicate 32 0)
    (fun dkp c => rfl) (List.replicate 384 0) (List.replicate 416 0)
    (List.replicate 32 0) [] 0 0 rfl rfl rfl rfl rfl

end MLKem

namespace MLKem

/-- Embedding of the K_PKE::key_gen of src/src/pke_scheme.rs (the variant
outside the Kyber directory): a_ntt is bound to an empty vector and never
extended (the loop pushes into a discarded tmp_line), after which the
t_ntt accumulation indexes a_ntt[i][j]; the sampled polynomials s_ntt and
e_ntt enter as parameters since the hashes are external, and the
out-of-bounds access is the checked lookup, a failure yielding none. -/
def key_gen_broken (k : ℕ) (s_ntt e_ntt : ℕ → Poly) : Option (List Poly) :=
  let a_ntt : List (List Poly) := []
  (List.range k).foldlM (fun t_ntt i =>
    ((List.range k).foldlM (fun pol j =>
        (a_ntt[i]?.bind fun row => row[j]?).map fun aij =>
          addPoly pol (mulNTT aij (s_ntt j)))
      zeroPoly).map fun pol => t_ntt ++ [addPoly pol (e_ntt i)])
    ([] : List Poly)

/-- C10 (code bug exhibit): for every parameter k of the supported sets the
key_gen of src/src/pke_scheme.rs reaches the out-of-bounds access a_ntt[0][0]
on its very first accumulation step, so it never produces a key pair, while
the variant in src/src/Kyber/pke_scheme.rs is total on the same inputs. -/
theorem key_gen_broken_panics (k : ℕ) (hk : k = 2 ∨ k = 3 ∨ k = 4)
    (s_ntt e_ntt : ℕ → Poly) : key_gen_broken k s_ntt e_ntt = none := by
  rcases hk with rfl | rfl | rfl <;> rfl

theorem key_gen_broken_panics_witness :
    key_gen_broken 2 (fun i => zeroPoly) (fun i => zeroPoly) = none :=
  key_gen_broken_panics 2 (Or.inl rfl) (fun i => zeroPoly) (fun i => zeroPoly)

end MLKem
